import Mathlib

/-!
Verification development for the annuaire-bio-local-database crawl-aggregate-persist
pipeline.  The Python sources under scripts/ are shallowly embedded: pure string
manipulation becomes functions on character lists, the Google Places HTTP upstream
becomes an explicit response function, file I/O on the CSV table becomes an explicit
table value, and the Python exception paths (IndexError in address parsing) become
Option results.
-/

/-- Model of Python str.split(sep-char): splits at every occurrence of the
separator predicate, keeping empty segments. -/
def splitCharOnP (p : Char → Bool) : List Char → List (List Char)
  | [] => [[]]
  | x :: xs =>
    match splitCharOnP p xs with
    | [] => [[]]
    | h :: t => if p x then [] :: h :: t else (x :: h) :: t

/-- Model of Python str.split(",") on character lists. -/
def splitComma (l : List Char) : List (List Char) :=
  splitCharOnP (fun c => c = ',') l

/-- Strip whitespace from both ends, as Python str.strip(). -/
def trimC (l : List Char) : List Char :=
  ((l.dropWhile Char.isWhitespace).reverse.dropWhile Char.isWhitespace).reverse

/-- Model of Python str.split() with no argument: split on whitespace runs,
dropping empty segments. -/
def splitWs (l : List Char) : List (List Char) :=
  (splitCharOnP Char.isWhitespace l).filter (fun seg => seg ≠ [])

/-- Model of Python sep.join(parts). -/
def joinWith (sep : List Char) : List (List Char) → List Char
  | [] => []
  | [x] => x
  | x :: y :: rest => x ++ sep ++ joinWith sep (y :: rest)

/-- Model of Python str.strip() on strings. -/
def pyStrip (s : String) : String := ⟨trimC s.data⟩

/-- Model of Python str.lower() (the keywords and names handled are treated
per character, as the source does). -/
def pyLower (s : String) : String := ⟨s.data.map Char.toLower⟩

/-- Does the first list occur as a prefix of the second? (helper for the
Python substring test). -/
def startsList : List Char → List Char → Bool
  | [], _ => true
  | _ :: _, [] => false
  | x :: xs, y :: ys => x = y && startsList xs ys

/-- Model of the Python substring test needle in haystack. -/
def subList (needle : List Char) : List Char → Bool
  | [] => needle.isEmpty
  | c :: rest => startsList needle (c :: rest) || subList needle rest

/-- Model of Python needle in haystack on strings. -/
def isSubOf (needle haystack : String) : Bool := subList needle.data haystack.data

/-- One raw hit of the Places text-search JSON: each upstream field may be
absent.  The numeric fields rating / user_ratings_total are carried as opaque
strings since the pipeline only ever propagates them verbatim into the CSV. -/
structure RawHit where
  place_id : Option String
  name : Option String
  formatted_address : Option String
  rating : Option String
  user_ratings_total : Option String
  types : Option (List String)
deriving DecidableEq

/-- The flat record built by extract_place_data (scrape_produits_bio.py 116–126). -/
structure PlaceData where
  place_id : String
  name : String
  address : String
  city : String
  postal_code : String
  rating : String
  user_ratings_total : String
  types : List String
  maps_url : String
deriving DecidableEq

/-- The canonical lookup URL, a pure function of the identifier
(scrape_produits_bio.py line 125, scraper_producteurs.py build_maps_url). -/
def build_maps_url (place_id : String) : String :=
  "https://www.google.com/maps/place/?q=place_id:" ++ place_id

namespace ProduitsBio

/-- parse_city_postal of scrape_produits_bio.py (lines 89–103): split the
address on commas, strip each part; with at least two parts take the
second-to-last, whose first whitespace token becomes the postal code and the
remaining tokens the city.  The Python tokens[0] raises IndexError when that
segment is blank; the embedding returns none there. -/
def parse_city_postal (formatted_address : String) : Option (String × String) :=
  let parts := (splitComma formatted_address.data).map trimC
  if parts.length ≥ 2 then
    let city_post := parts.getD (parts.length - 2) []
    match splitWs city_post with
    | [] => none
    | t :: rest =>
      some (if rest.length > 0 then ⟨joinWith [' '] rest⟩ else "", ⟨t⟩)
  else
    some ("", "")

/-- extract_place_data of scrape_produits_bio.py (lines 106–126); none models
the IndexError escaping from parse_city_postal. -/
def extract_place_data (place : RawHit) : Option PlaceData :=
  let pid := place.place_id.getD ""
  let nm := pyStrip (place.name.getD "")
  let addr := pyStrip (place.formatted_address.getD "")
  match parse_city_postal addr with
  | none => none
  | some cp =>
    some { place_id := pid
           name := nm
           address := addr
           city := cp.1
           postal_code := cp.2
           rating := place.rating.getD ""
           user_ratings_total := place.user_ratings_total.getD ""
           types := place.types.getD []
           maps_url := build_maps_url pid }

end ProduitsBio

/-- One JSON response of the text-search endpoint: its results array and the
optional continuation token. -/
structure ApiPage where
  results : List RawHit
  next_page_token : Option String

/-- The pagination while-loop shared verbatim by fetch_places_for_keyword
(scrape_produits_bio.py 57–86), places_text_search (scraper_producteurs.py
61–75) and places_text_search (scrape_one_by_one.py 85–101): request a page,
accumulate its results, stop when no continuation token is returned, otherwise
sleep 2.1 s and request the next page.  The upstream argument gives the i-th
response of the logical search; the fuel argument bounds how many loop
iterations are modelled, none meaning the loop was still running after that
many pages.  On termination the value is (all results in page order, number of
HTTP requests issued, number of 2.1 s sleeps, one before each continuation
request). -/
def fetch_places_loop (upstream : Nat → ApiPage) : Nat → Nat → Option (List RawHit × Nat × Nat)
  | 0, _ => none
  | fuel + 1, i =>
    let page := upstream i
    match page.next_page_token with
    | none => some (page.results, 1, 0)
    | some _ =>
      match fetch_places_loop upstream fuel (i + 1) with
      | none => none
      | some (rest, reqs, sleeps) => some (page.results ++ rest, reqs + 1, sleeps + 1)

/-- Concatenation, in order, of the results of pages j, j+1, …, j+n-1. -/
def pagesConcat (upstream : Nat → ApiPage) (j : Nat) : Nat → List RawHit
  | 0 => []
  | n + 1 => (upstream j).results ++ pagesConcat upstream (j + 1) n

/-- A CSV file as the pipeline sees it: whether the header row has been
written, and the data rows in file order. -/
structure CsvTable (α : Type) where
  header_written : Bool
  rows : List α
deriving DecidableEq

/-- Opening the output CSV: if the file does not yet exist, create it and
write the header exactly once. -/
def ensureCsv {α : Type} (t : Option (CsvTable α)) : CsvTable α :=
  match t with
  | some t => t
  | none => ⟨true, []⟩

namespace ProduitsBio

/-- EXCLUDE_TYPES of scrape_produits_bio.py (lines 31–34). -/
def EXCLUDE_TYPES : List String := ["courthouse", "local_government_office"]

/-- EXCLUDE_NAME_KEYWORDS of scrape_produits_bio.py (lines 37–41); the set
literal contains the empty string. -/
def EXCLUDE_NAME_KEYWORDS : List String := ["tribunal", "palais", ""]

/-- The dedup loop of run_scraper (lines 151–156): keep the first occurrence
of each truthy place_id, in encounter order. -/
def dedupByPid : List RawHit → List (String × RawHit) → List (String × RawHit)
  | [], acc => acc
  | p :: rest, acc =>
    match p.place_id with
    | none => dedupByPid rest acc
    | some pid =>
      if pid ≠ "" ∧ pid ∉ acc.map (fun q => q.1) then dedupByPid rest (acc ++ [(pid, p)])
      else dedupByPid rest acc

/-- The filter loop of run_scraper (lines 158–169): extract each deduplicated
hit (the extraction can fail, aborting the run), drop it when a type is
black-listed or when the lowercased name contains an excluded word. -/
def filterPlaces : List RawHit → Option (List PlaceData)
  | [] => some []
  | raw :: rest =>
    match extract_place_data raw with
    | none => none
    | some data =>
      if data.types.any (fun t => t ∈ EXCLUDE_TYPES) then filterPlaces rest
      else if EXCLUDE_NAME_KEYWORDS.any (fun k => isSubOf k (pyLower data.name)) then
        filterPlaces rest
      else (filterPlaces rest).map (fun l => data :: l)

/-- run_scraper of scrape_produits_bio.py (lines 132–194), with the HTTP layer
abstracted into the per-keyword result lists: concatenate all keywords'
results, deduplicate by place_id, filter, then write a fresh CSV (header plus
one row per surviving record) and return the row count.  none models the run
dying on an exception. -/
def run_scraper (keywords : List String) (fetched : String → List RawHit) :
    Option (CsvTable PlaceData × Nat) :=
  let all_places := (keywords.map fetched).flatten
  let unique := dedupByPid all_places []
  match filterPlaces (unique.map (fun q => q.2)) with
  | none => none
  | some filtered => some (⟨true, filtered⟩, filtered.length)

end ProduitsBio

/-- Attempt to match the producer scripts' postal regex
`,\s*(\d\x7b4,5\x7d)\s+([^,]+)` at the head of the character list, returning
the two capture groups.  The digit group is the maximal digit run when its
length is 4 or 5 (longer runs make the following `\s+` fail even after
backtracking); `[^,]+` takes everything up to the next comma, backtracking to
steal the final whitespace character when it would otherwise be empty. -/
def reMatchAt : List Char → Option (List Char × List Char)
  | [] => none
  | c :: rest =>
    if c = ',' then
      let r1 := rest.dropWhile Char.isWhitespace
      let ds := r1.takeWhile Char.isDigit
      let r2 := r1.dropWhile Char.isDigit
      if ds.length = 4 ∨ ds.length = 5 then
        let ws := r2.takeWhile Char.isWhitespace
        let r3 := r2.dropWhile Char.isWhitespace
        if ws.length = 0 then none
        else
          let nc := r3.takeWhile (fun ch => ch ≠ ',')
          if nc ≠ [] then some (ds, nc)
          else if ws.length ≥ 2 then some (ds, [ws.getLastD ' '])
          else none
      else none
    else none

/-- re.search of the postal regex: try each start position left to right. -/
def reSearchPC : List Char → Option (List Char × List Char)
  | [] => none
  | c :: rest =>
    match reMatchAt (c :: rest) with
    | some g => some g
    | none => reSearchPC rest

namespace Producteurs

/-- parse_city_postal of scraper_producteurs.py (lines 50–54): regex search,
returning (city, postal) on a match and ("", "") otherwise. -/
def parse_city_postal (address : String) : String × String :=
  match reSearchPC address.data with
  | some g => (pyStrip ⟨g.2⟩, pyStrip ⟨g.1⟩)
  | none => ("", "")

/-- PRODUCER_TYPES of scraper_producteurs.py (line 78). -/
def PRODUCER_TYPES : List String := ["farm", "farmers_market"]

/-- PRODUCER_NAME_KEYWORDS of scraper_producteurs.py (lines 80–91); the two
adjacent string literals on the producteur / ferme lines concatenate into the
single element producteurferme. -/
def PRODUCER_NAME_KEYWORDS : List String :=
  ["maraicher", "maraîcher", "miellerie", "apiculteur", "élevage", "fermier",
   "volaille", "marché fermier", "producteurferme"]

/-- One CSV row of data/producteurs.csv. -/
structure Row where
  name : String
  address : String
  city : String
  postal_code : String
  rating : String
  user_ratings_total : String
  types : String
  maps_url : String
  matched_keyword : String
deriving DecidableEq

/-- Pipe-join of the types list, as "|".join(types_list). -/
def pipeJoin (l : List String) : String := ⟨joinWith ['|'] (l.map String.data)⟩

/-- The body of the inner result loop of scraper_producteurs.py main
(lines 127–160): skip hits without a truthy place_id or already seen, keep
only producer-typed or producer-named hits, then mark the id seen and append
one row to the CSV. -/
def step (seen : Finset String) (rows : List Row) (kw : String) (place : RawHit) :
    Finset String × List Row :=
  match place.place_id with
  | none => (seen, rows)
  | some pid =>
    if pid = "" ∨ pid ∈ seen then (seen, rows)
    else
      let types_list := place.types.getD []
      let nm := pyStrip (place.name.getD "")
      let name_l := pyLower nm
      if ¬ (types_list.any (fun t => t ∈ PRODUCER_TYPES)
            ∨ PRODUCER_NAME_KEYWORDS.any (fun k => isSubOf k name_l)) then (seen, rows)
      else
        let address := pyStrip (place.formatted_address.getD "")
        let cp := parse_city_postal address
        (insert pid seen,
         rows ++ [{ name := nm
                    address := address
                    city := cp.1
                    postal_code := cp.2
                    rating := place.rating.getD ""
                    user_ratings_total := place.user_ratings_total.getD ""
                    types := pipeJoin types_list
                    maps_url := build_maps_url pid
                    matched_keyword := kw }])

/-- The city × keyword × result loops of main, flattened into the sequence of
(keyword, hit) observations the run makes. -/
def runObs : List (String × RawHit) → Finset String → List Row → Finset String × List Row
  | [], seen, rows => (seen, rows)
  | ob :: rest, seen, rows =>
    let sr := step seen rows ob.1 ob.2
    runObs rest sr.1 sr.2

/-- main of scraper_producteurs.py (lines 97–163) acting on the persisted
table: create the table with its header if absent, then append every row the
run produces.  The seen-set starts empty; the existing table is never read. -/
def mainTable (t0 : Option (CsvTable Row)) (obs : List (String × RawHit)) : CsvTable Row :=
  let t := ensureCsv t0
  ⟨t.header_written, t.rows ++ (runObs obs ∅ []).2⟩

end Producteurs

namespace OneByOne

/-- EXCLUDE_TYPES of scrape_one_by_one.py (lines 64–67). -/
def EXCLUDE_TYPES : List String := ["courthouse", "local_government_office"]

/-- EXCLUDE_NAME_KEYWORDS of scrape_one_by_one.py (line 70): no empty string
here. -/
def EXCLUDE_NAME_KEYWORDS : List String := ["tribunal", "palais"]

/-- parse_address of scrape_one_by_one.py (lines 75–77): same regex, returning
(postal, city). -/
def parse_address (address : String) : String × String :=
  match reSearchPC address.data with
  | some g => (pyStrip ⟨g.1⟩, pyStrip ⟨g.2⟩)
  | none => ("", "")

/-- One value of the seen dict of scrape (lines 128–137). -/
structure Row where
  name : String
  address : String
  city : String
  postal_code : String
  rating : String
  reviews : String
  types : String
  maps_url : String
deriving DecidableEq

/-- The body of the result loop of scrape (lines 110–137): reject hits whose
place_id is missing, empty or already seen, apply the type and name filters,
then record the row under its id. -/
def scrapeStep (seen : List (String × Row)) (place : RawHit) : List (String × Row) :=
  match place.place_id with
  | none => seen
  | some pid =>
    if pid = "" ∨ pid ∈ seen.map (fun q => q.1) then seen
    else
      let types := place.types.getD []
      if types.any (fun t => t ∈ EXCLUDE_TYPES) then seen
      else
        let name_lower := pyLower (place.name.getD "")
        if EXCLUDE_NAME_KEYWORDS.any (fun k => isSubOf k name_lower) then seen
        else
          let addr := place.formatted_address.getD ""
          let pc := parse_address addr
          seen ++ [(pid, { name := place.name.getD ""
                           address := addr
                           city := pc.2
                           postal_code := pc.1
                           rating := place.rating.getD ""
                           reviews := place.user_ratings_total.getD ""
                           types := Producteurs.pipeJoin (place.types.getD [])
                           maps_url := build_maps_url pid })]

/-- scrape of scrape_one_by_one.py (lines 104–141) over the flattened hit
sequence of all keyword searches. -/
def scrape : List RawHit → List (String × Row) → List (String × Row)
  | [], seen => seen
  | place :: rest, seen => scrape rest (scrapeStep seen place)

end OneByOne

namespace RunAll

/-- One aggregation entry of the per-city dict city_data of run_all_scraper.py
(lines 103–129): the extracted place data plus the three tag sets. -/
structure CityEntry where
  data : PlaceData
  matched_keywords : Finset String
  place_category : Finset String
  product_category : Finset String
deriving DecidableEq

/-- The fresh entry made on first observation of a URL (lines 115–119). -/
def initEntry (d : PlaceData) : CityEntry := ⟨d, ∅, ∅, ∅⟩

/-- Lines 121–129: add the lowercased keyword to matched_keywords and, when
the mappings yield a truthy value, the categories to their sets. -/
def addCats (place_map product_map : String → Option String) (lckw : String)
    (e : CityEntry) : CityEntry :=
  let e1 := { e with matched_keywords := insert lckw e.matched_keywords }
  let e2 :=
    match place_map lckw with
    | some plc => if plc = "" then e1 else { e1 with place_category := insert plc e1.place_category }
    | none => e1
  match product_map lckw with
  | some pm => if pm = "" then e2 else { e2 with product_category := insert pm e2.product_category }
  | none => e2

/-- The per-city dict, as an insertion-ordered association list (Python dicts
preserve insertion order, which is the order rows are later written in). -/
def CityData : Type := List (String × CityEntry)

instance : DecidableEq CityData := by unfold CityData; infer_instance

/-- Dict membership test url in city_data. -/
def lookupEntry (url : String) : List (String × CityEntry) → Option CityEntry
  | [] => none
  | p :: rest => if p.1 = url then some p.2 else lookupEntry url rest

/-- Dict update city_data[url] at an existing key. -/
def updateEntry (url : String) (f : CityEntry → CityEntry) :
    List (String × CityEntry) → List (String × CityEntry)
  | [] => []
  | p :: rest => if p.1 = url then (p.1, f p.2) :: rest else p :: updateEntry url f rest

/-- The body of the result loop (lines 109–129): extract the hit (an
exception aborts the run), skip it when its URL is falsy or already persisted,
otherwise create the entry on first sight and merge the tags. -/
def observeHit (place_map product_map : String → Option String) (existing_urls : Finset String)
    (city_data : List (String × CityEntry)) (lckw : String) (raw : RawHit) :
    Option (List (String × CityEntry)) :=
  match ProduitsBio.extract_place_data raw with
  | none => none
  | some data =>
    let url := data.maps_url
    if url = "" ∨ url ∈ existing_urls then some city_data
    else
      match lookupEntry url city_data with
      | some _ => some (updateEntry url (addCats place_map product_map lckw) city_data)
      | none =>
        some (city_data ++ [(url, addCats place_map product_map lckw (initEntry data))])

/-- The result loop for one keyword search. -/
def processHits (pm prm : String → Option String) (E : Finset String) (lckw : String) :
    List RawHit → List (String × CityEntry) → Option (List (String × CityEntry))
  | [], cd => some cd
  | raw :: rest, cd =>
    match observeHit pm prm E cd lckw raw with
    | none => none
    | some cd' => processHits pm prm E lckw rest cd'

/-- The keyword loop of one city (lines 105–130), given the upstream results
of each keyword search. -/
def processSearches (pm prm : String → Option String) (E : Finset String) :
    List (String × List RawHit) → List (String × CityEntry) → Option (List (String × CityEntry))
  | [], cd => some cd
  | s :: rest, cd =>
    match processHits pm prm E (pyLower s.1) s.2 cd with
    | none => none
    | some cd' => processSearches pm prm E rest cd'

/-- The same processing over an already flattened list of
(lowercased keyword, hit) observations. -/
def processObs (pm prm : String → Option String) (E : Finset String) :
    List (String × RawHit) → List (String × CityEntry) → Option (List (String × CityEntry))
  | [], cd => some cd
  | ob :: rest, cd =>
    match observeHit pm prm E cd ob.1 ob.2 with
    | none => none
    | some cd' => processObs pm prm E rest cd'

/-- Flattening of one city's searches into its observation sequence. -/
def obsOf : List (String × List RawHit) → List (String × RawHit)
  | [] => []
  | s :: rest => s.2.map (fun r => (pyLower s.1, r)) ++ obsOf rest

/-- The URL under which a raw hit would be aggregated, none when extraction
fails. -/
def urlOfHit (raw : RawHit) : Option String :=
  (ProduitsBio.extract_place_data raw).map (fun d => d.maps_url)

/-- The set of (lowercased) keywords whose searches returned a hit aggregated
under the given URL. -/
def keywordsFor (obs : List (String × RawHit)) (url : String) : Finset String :=
  ((obs.filter (fun ob => urlOfHit ob.2 = some url)).map (fun ob => ob.1)).toFinset

/-- All URLs observed in an observation sequence. -/
def observedUrls (obs : List (String × RawHit)) : List String :=
  obs.filterMap (fun ob => urlOfHit ob.2)

/-- The keys of the per-city dict. -/
def keysOf (cd : List (String × CityEntry)) : List String := cd.map (fun p => p.1)

/-- The run state between cities: the rows appended to the table so far this
run, and the in-memory existing_urls set. -/
structure RunState where
  table : List CityEntry
  existing_urls : Finset String
deriving DecidableEq

/-- The end-of-city flush (lines 132–145): append every aggregated entry as a
row and add its URL to existing_urls. -/
def flushCity (st : RunState) (cd : List (String × CityEntry)) : RunState :=
  { table := st.table ++ cd.map (fun p => p.2)
    existing_urls := st.existing_urls ∪ (cd.map (fun p => p.1)).toFinset }

/-- One full city: crawl all keywords into the per-city dict, then flush. -/
def processArea (pm prm : String → Option String) (st : RunState)
    (searches : List (String × List RawHit)) : Option RunState :=
  match processSearches pm prm st.existing_urls searches [] with
  | none => none
  | some cd => some (flushCity st cd)

/-- The city loop of main (lines 101–146). -/
def runAreas (pm prm : String → Option String) (st : RunState) :
    List (List (String × List RawHit)) → Option RunState
  | [] => some st
  | a :: rest =>
    match processArea pm prm st a with
    | none => none
    | some st' => runAreas pm prm st' rest

/-- main of run_all_scraper.py (lines 47–148) acting on the persisted table:
create the CSV with its header if absent, load existing_urls from the
maps_url column, run every city, and return the final table together with the
final existing_urls set. -/
def run_all_main (pm prm : String → Option String) (t0 : Option (CsvTable CityEntry))
    (areas : List (List (String × List RawHit))) :
    Option (CsvTable CityEntry × Finset String) :=
  let t := ensureCsv t0
  let E0 := (t.rows.map (fun e => e.data.maps_url)).toFinset
  match runAreas pm prm ⟨[], E0⟩ areas with
  | none => none
  | some st => some (⟨t.header_written, t.rows ++ st.table⟩, st.existing_urls)

/-- The loop invariant of one city's aggregation, over the observations made
so far: keys are distinct, each entry sits under its own record's URL, the
keys are exactly the observed URLs not already persisted, and each entry's
matched-keyword set is the set of lowercased keywords that hit its URL. -/
def Inv (E : Finset String) (obs : List (String × RawHit))
    (cd : List (String × CityEntry)) : Prop :=
  (keysOf cd).Nodup
  ∧ (∀ p ∈ cd, p.2.data.maps_url = p.1)
  ∧ (∀ u : String, u ∈ keysOf cd ↔ (u ∉ E ∧ u ∈ observedUrls obs))
  ∧ (∀ p ∈ cd, p.2.matched_keywords = keywordsFor obs p.1)

end RunAll

/-- A concrete two-token upstream for the pagination witness. -/
def demoUpstream : Nat → ApiPage :=
  fun i => if i < 2 then ⟨[], some "t"⟩ else ⟨[], none⟩

/-- A concrete raw hit for run-level witnesses. -/
def demoHit : RawHit :=
  ⟨some "abc", some "Ferme X", some "1 Rue Y, 5000 Namur, Belgium", none, none, some ["store"]⟩

/-- A second concrete raw hit, for a second area. -/
def demoHit2 : RawHit :=
  ⟨some "def", some "Magasin Y", some "2 Rue Z, 4000 Liège, Belgium", none, none, some ["store"]⟩

/-- The URL the first demo hit aggregates under. -/
def demoUrl : String := "https://www.google.com/maps/place/?q=place_id:abc"

/-- The record extracted from the first demo hit. -/
def demoEntryData : PlaceData :=
  ⟨"abc", "Ferme X", "1 Rue Y, 5000 Namur, Belgium", "Namur", "5000", "", "", ["store"],
   "https://www.google.com/maps/place/?q=place_id:abc"⟩

/-- One demo area: a single keyword search returning the first demo hit. -/
def demoSearches : List (String × List RawHit) := [("Kw", [demoHit])]

/-- The city dict that crawl produces. -/
def demoCd : List (String × RunAll.CityEntry) :=
  [(demoUrl, ⟨demoEntryData, {"kw"}, ∅, ∅⟩)]

/-- The run state after flushing that one area from an empty table. -/
def demoSt : RunAll.RunState := ⟨[⟨demoEntryData, {"kw"}, ∅, ∅⟩], {demoUrl}⟩

/-- The CSV table the one-area demo run produces. -/
def demoT1 : CsvTable RunAll.CityEntry := ⟨true, [⟨demoEntryData, {"kw"}, ∅, ∅⟩]⟩

/-- Its final existing-URL set. -/
def demoE1 : Finset String := {demoUrl}

/-- The URL the second demo hit aggregates under. -/
def demoUrl2 : String := "https://www.google.com/maps/place/?q=place_id:def"

/-- The record extracted from the second demo hit. -/
def demoEntryData2 : PlaceData :=
  ⟨"def", "Magasin Y", "2 Rue Z, 4000 Liège, Belgium", "Liège", "4000", "", "", ["store"],
   "https://www.google.com/maps/place/?q=place_id:def"⟩

/-- A second demo area: one keyword search returning the second demo hit. -/
def demoSearches2 : List (String × List RawHit) := [("kw2", [demoHit2])]

/-- The run state after both demo areas. -/
def demoSt2 : RunAll.RunState :=
  ⟨[⟨demoEntryData, {"kw"}, ∅, ∅⟩, ⟨demoEntryData2, {"kw2"}, ∅, ∅⟩], {demoUrl, demoUrl2}⟩

/-- A producer observation that passes the producer filter (type farm). -/
def demoFarmObs : List (String × RawHit) :=
  [("kw", ⟨some "p1", some "Ferme Z", some "1 Rue Y, 5000 Namur, Belgium",
           none, none, some ["farm"]⟩)]

/-! Helper lemmas. -/

/-- The empty needle is a substring of every character list. -/
theorem subList_nil (l : List Char) : subList [] l = true := by
  cases l <;> simp [subList, startsList]

/-- The empty string is a Python-substring of every string. -/
theorem isSubOf_empty (s : String) : isSubOf "" s = true := by
  show subList "".data s.data = true
  exact subList_nil _

/-- The filter loop of run_scraper never lets a record through: the excluded
name substrings contain the empty string, a substring of every name. -/
theorem filterPlaces_eq_nil : ∀ (l : List RawHit) (r : List PlaceData),
    ProduitsBio.filterPlaces l = some r → r = [] := by
  intro l
  induction l with
  | nil =>
    intro r h
    simp [ProduitsBio.filterPlaces] at h
    exact h
  | cons raw rest ih =>
    intro r h
    cases hx : ProduitsBio.extract_place_data raw with
    | none => simp [ProduitsBio.filterPlaces, hx] at h
    | some data =>
      simp only [ProduitsBio.filterPlaces, hx] at h
      by_cases h1 : (data.types.any fun t => decide (t ∈ ProduitsBio.EXCLUDE_TYPES)) = true
      · rw [if_pos h1] at h
        exact ih r h
      · rw [if_neg h1] at h
        have h2 : (ProduitsBio.EXCLUDE_NAME_KEYWORDS.any
            fun k => isSubOf k (pyLower data.name)) = true := by
          apply List.any_eq_true.mpr
          exact ⟨"", by simp [ProduitsBio.EXCLUDE_NAME_KEYWORDS], isSubOf_empty _⟩
        rw [if_pos h2] at h
        exact ih r h

/-- Behaviour of the shared pagination loop when the upstream serves tokens on
pages j … j+K-1 and none on page j+K. -/
theorem fetch_places_loop_spec (upstream : Nat → ApiPage) :
    ∀ (K fuel j : Nat),
      (∀ i, i < K → (upstream (j + i)).next_page_token ≠ none) →
      (upstream (j + K)).next_page_token = none →
      K < fuel →
      fetch_places_loop upstream fuel j = some (pagesConcat upstream j (K + 1), K + 1, K) := by
  intro K
  induction K with
  | zero =>
    intro fuel j _ hstop hfuel
    match fuel, hfuel with
    | f + 1, _ =>
      simp only [fetch_places_loop]
      rw [Nat.add_zero] at hstop
      rw [hstop]
      simp [pagesConcat]
  | succ K ih =>
    intro fuel j htok hstop hfuel
    match fuel, hfuel with
    | f + 1, hf =>
      simp only [fetch_places_loop]
      have h0 : (upstream j).next_page_token ≠ none := by
        have h00 := htok 0 (Nat.succ_pos K)
        rwa [Nat.add_zero] at h00
      cases htk : (upstream j).next_page_token with
      | none => exact absurd htk h0
      | some t =>
        have hrec := ih f (j + 1)
          (fun i hi => by
            have e : j + 1 + i = j + (i + 1) := by omega
            rw [e]
            exact htok (i + 1) (by omega))
          (by
            have e : j + 1 + K = j + (K + 1) := by omega
            rw [e]
            exact hstop)
          (by omega)
        rw [hrec]
        simp [pagesConcat]

/-! Claim theorems: pagination (C3, C8). -/

/-- C3: against an upstream that returns a continuation token on each of the
first K responses and none on the (K+1)-th, one logical search of the shared
pagination loop issues exactly K+1 requests, sleeps 2.1 s exactly K times
(once before each continuation request, as the loop structure places every
sleep directly before the follow-up request), terminates on the token-free
response, and returns the concatenation of all pages' results in order. -/
theorem pagination_terminates_k_plus_one (upstream : Nat → ApiPage) (K fuel : Nat)
    (htok : ∀ i, i < K → (upstream i).next_page_token ≠ none)
    (hstop : (upstream K).next_page_token = none)
    (hfuel : K < fuel) :
    fetch_places_loop upstream fuel 0 = some (pagesConcat upstream 0 (K + 1), K + 1, K) := by
  apply fetch_places_loop_spec upstream K fuel 0
  · intro i hi
    rw [Nat.zero_add]
    exact htok i hi
  · rw [Nat.zero_add]
    exact hstop
  · exact hfuel

/-- Witness for pagination_terminates_k_plus_one at K = 2, fuel = 5. -/
theorem pagination_terminates_k_plus_one_witness :
    fetch_places_loop demoUpstream 5 0 = some (pagesConcat demoUpstream 0 3, 3, 2) :=
  pagination_terminates_k_plus_one demoUpstream 2 5
    (fun i hi => by simp [demoUpstream, hi])
    (by simp [demoUpstream])
    (by omega)

/-- C8 counterexample: the claim says the client stops after a page cap of 3,
but against an upstream that always returns a token the loop is still running
after 10 pages. -/
theorem pagination_unbounded_counterexample :
    fetch_places_loop (fun _ => ⟨[], some "token"⟩) 10 0 = none := by decide

/-- C8 amended: none of the three pagination loops bounds the number of pages;
each loops for as long as a token is present, so against an upstream returning
a token on every response the loop never terminates (it is still running after
any number of pages); termination relies on the upstream eventually omitting
the token. -/
theorem pagination_no_page_cap (upstream : Nat → ApiPage)
    (htok : ∀ i, (upstream i).next_page_token ≠ none) :
    ∀ fuel j, fetch_places_loop upstream fuel j = none := by
  intro fuel
  induction fuel with
  | zero => intro j; rfl
  | succ f ih =>
    intro j
    simp only [fetch_places_loop]
    cases htk : (upstream j).next_page_token with
    | none => exact absurd htk (htok j)
    | some t => rw [ih (j + 1)]

/-- Witness for pagination_no_page_cap on the constant-token upstream. -/
theorem pagination_no_page_cap_witness :
    fetch_places_loop (fun _ => ⟨[], some "t"⟩) 7 0 = none :=
  pagination_no_page_cap (fun _ => ⟨[], some "t"⟩) (fun _ => by simp) 7 0

/-! Claim theorems: run_scraper always empty (C4). -/

/-- C4 counterexample: the claim quantifies over every upstream response, but
a hit whose address makes the second-to-last comma segment blank raises
IndexError inside extract_place_data before anything is written, so run_scraper
neither writes a CSV nor returns 0 there. -/
theorem run_scraper_exception_counterexample :
    ProduitsBio.run_scraper ["bio"]
      (fun _ => [⟨some "a", some "X", some ",", none, none, none⟩]) = none := by decide

/-- C4 amended: whenever run_scraper completes (no hit's address triggers the
address-parsing IndexError), it writes a header-only CSV and returns 0,
because the configured name-exclusion set contains the empty string, a
substring of every lowercased name, so the name filter drops every
deduplicated record. -/
theorem run_scraper_header_only (keywords : List String) (fetched : String → List RawHit)
    (t : CsvTable PlaceData) (n : Nat)
    (h : ProduitsBio.run_scraper keywords fetched = some (t, n)) :
    t.rows = [] ∧ n = 0 ∧ t.header_written = true := by
  cases hf : ProduitsBio.filterPlaces
      (List.map (fun q => q.2) (ProduitsBio.dedupByPid (List.map fetched keywords).flatten [])) with
  | none => simp [ProduitsBio.run_scraper, hf] at h
  | some filtered =>
    have hnil : filtered = [] := filterPlaces_eq_nil _ _ hf
    simp only [ProduitsBio.run_scraper, hf, Option.some.injEq, Prod.mk.injEq] at h
    obtain ⟨ht, hn⟩ := h
    subst ht hn
    simp [hnil]

/-- Witness for run_scraper_header_only on a one-keyword, one-hit upstream. -/
theorem run_scraper_header_only_witness :
    ProduitsBio.run_scraper ["k"]
        (fun _ => [⟨some "a", some "Ferme", some "1 Rue Y, 5000 Namur, Belgium",
                    none, none, none⟩]) =
      some (⟨true, ([] : List PlaceData)⟩, 0)
    ∧ (([] : List PlaceData) = [] ∧ (0 : Nat) = 0 ∧ true = true) :=
  ⟨by decide,
   run_scraper_header_only ["k"]
     (fun _ => [⟨some "a", some "Ferme", some "1 Rue Y, 5000 Namur, Belgium",
                 none, none, none⟩])
     ⟨true, []⟩ 0 (by decide)⟩

/-! Claim theorems: address parsing (C6). -/

/-- C6 counterexample: on an address whose segments carry no 4–5 digit token
the split-based parser of scrape_produits_bio.py does not yield empty city and
postal code; it returns the second-to-last segment's first token as the postal
code. -/
theorem parse_city_postal_nonnumeric_counterexample :
    ProduitsBio.parse_city_postal "12 Rue X, Namur, Belgium" = some ("", "Namur")
    ∧ ProduitsBio.parse_city_postal "12 Rue X, Namur, Belgium" ≠ some ("", "") := by decide

/-- C6 amended: both parsers map the example address to postal 5000 and city
Namur.  The regex parser of scraper_producteurs.py yields empty city and
postal whenever its pattern finds no match.  The split parser of
scrape_produits_bio.py yields empty city and postal only when the address has
fewer than two comma-separated segments; with two or more segments it returns
the second-to-last segment's first whitespace token as the postal code whether
or not it is numeric, and fails with an IndexError when that segment is blank. -/
theorem address_parsing_behaviour :
    ProduitsBio.parse_city_postal "12 Rue X, 5000 Namur, Belgium" = some ("Namur", "5000")
    ∧ Producteurs.parse_city_postal "12 Rue X, 5000 Namur, Belgium" = ("Namur", "5000")
    ∧ (∀ a : String, ((splitComma a.data).map trimC).length < 2 →
        ProduitsBio.parse_city_postal a = some ("", ""))
    ∧ (∀ a : String, reSearchPC a.data = none →
        Producteurs.parse_city_postal a = ("", "")) := by
  refine ⟨by decide, by decide, ?_, ?_⟩
  · intro a ha
    simp only [ProduitsBio.parse_city_postal]
    rw [if_neg (by omega)]
  · intro a ha
    simp only [Producteurs.parse_city_postal, ha]

/-- Witness for address_parsing_behaviour: its universally quantified parts at
concrete addresses. -/
theorem address_parsing_behaviour_witness :
    ProduitsBio.parse_city_postal "abc" = some ("", "")
    ∧ Producteurs.parse_city_postal "abc" = ("", "") :=
  ⟨address_parsing_behaviour.2.2.1 "abc" (by decide),
   address_parsing_behaviour.2.2.2 "abc" (by decide)⟩

/-! Claim theorems: normalization totality (C10). -/

/-- C10 counterexample: extraction is not total; a hit whose address is a
lone comma makes parse_city_postal index an empty token list (IndexError in
the source), so extract_place_data fails instead of returning a record. -/
theorem extract_place_data_error_counterexample :
    ProduitsBio.extract_place_data ⟨some "id1", some "Ferme", some ",", none, none, none⟩ =
      none := by decide

/-- C10 amended: extract_place_data fails exactly when the address parser
fails on the stripped address (second-to-last comma segment blank); on every
other raw hit it returns a record, and with all upstream fields missing every
field degrades to the empty string, the empty type list, and the URL built
from the empty identifier. -/
theorem extract_place_data_degrades :
    (∀ p : RawHit, (ProduitsBio.extract_place_data p).isSome =
        (ProduitsBio.parse_city_postal (pyStrip (p.formatted_address.getD ""))).isSome)
    ∧ ProduitsBio.extract_place_data ⟨none, none, none, none, none, none⟩ =
        some ⟨"", "", "", "", "", "", "", [],
              "https://www.google.com/maps/place/?q=place_id:"⟩ := by
  constructor
  · intro p
    cases hp : ProduitsBio.parse_city_postal (pyStrip (p.formatted_address.getD "")) with
    | none => simp [ProduitsBio.extract_place_data, hp]
    | some cp => simp [ProduitsBio.extract_place_data, hp]
  · decide

/-! Claim theorems: missing place identifier (C7). -/

/-- C7: the claim holds in scrape_one_by_one.py and scrape_produits_bio.py,
whose loops test the place_id itself, but run_all_scraper.py tests the
maps_url instead, and the URL built from a missing identifier is the non-empty
constant prefix, so the hit is aggregated and one row is flushed for it:
the first conjunct shows the full orchestrator persisting a row whose
place_id is empty, the second and third show the two other scripts rejecting
the same hit, and the fourth shows the guard value that was meant to be falsy. -/
theorem missing_identifier_not_rejected :
    (RunAll.run_all_main (fun _ => none) (fun _ => none) none
        [[("kw", [⟨none, some "X", some "1 Rue Y, 5000 Namur, Belgium",
                   none, none, none⟩])]]).map
      (fun r => r.1.rows.map (fun e => (e.data.place_id, e.data.maps_url))) =
      some [("", "https://www.google.com/maps/place/?q=place_id:")]
    ∧ OneByOne.scrape [⟨none, some "X", some "1 Rue Y, 5000 Namur, Belgium",
                        none, none, none⟩] [] = []
    ∧ ProduitsBio.run_scraper ["kw"]
        (fun _ => [⟨none, some "X", some "1 Rue Y, 5000 Namur, Belgium",
                    none, none, none⟩]) = some (⟨true, []⟩, 0)
    ∧ build_maps_url "" = "https://www.google.com/maps/place/?q=place_id:" := by decide

/-! Lemmas about the run_all_scraper aggregation. -/

namespace RunAll

/-- Tag merging never touches the place record itself. -/
theorem addCats_data (pm prm : String → Option String) (l : String) (e : CityEntry) :
    (addCats pm prm l e).data = e.data := by
  cases hp : pm l <;> cases hq : prm l <;>
    simp only [addCats, hp, hq] <;> split_ifs <;> rfl

/-- Tag merging inserts exactly the lowercased keyword into matched_keywords. -/
theorem addCats_mk (pm prm : String → Option String) (l : String) (e : CityEntry) :
    (addCats pm prm l e).matched_keywords = insert l e.matched_keywords := by
  cases hp : pm l <;> cases hq : prm l <;>
    simp only [addCats, hp, hq] <;> split_ifs <;> rfl

/-- Tag merging only grows the matched-keyword set. -/
theorem addCats_mk_grow (pm prm : String → Option String) (l : String) (e : CityEntry) :
    e.matched_keywords ⊆ (addCats pm prm l e).matched_keywords := by
  rw [addCats_mk]
  exact Finset.subset_insert _ _

/-- Tag merging only grows the place-category set. -/
theorem addCats_pc_grow (pm prm : String → Option String) (l : String) (e : CityEntry) :
    e.place_category ⊆ (addCats pm prm l e).place_category := by
  cases hp : pm l <;> cases hq : prm l <;>
    simp only [addCats, hp, hq] <;> try split_ifs
  all_goals
    first
      | exact Finset.Subset.refl _
      | exact Finset.subset_insert _ _

/-- Tag merging only grows the product-category set. -/
theorem addCats_prc_grow (pm prm : String → Option String) (l : String) (e : CityEntry) :
    e.product_category ⊆ (addCats pm prm l e).product_category := by
  cases hp : pm l <;> cases hq : prm l <;>
    simp only [addCats, hp, hq] <;> try split_ifs
  all_goals
    first
      | exact Finset.Subset.refl _
      | exact Finset.subset_insert _ _

/-- Dict lookup fails exactly off the key list. -/
theorem lookupEntry_none_iff (u : String) (cd : List (String × CityEntry)) :
    lookupEntry u cd = none ↔ u ∉ keysOf cd := by
  induction cd with
  | nil => simp [lookupEntry, keysOf]
  | cons p rest ih =>
    by_cases h : p.1 = u
    · subst h
      simp [lookupEntry, keysOf]
    · have h' : ¬ u = p.1 := fun e => h e.symm
      simp [lookupEntry, keysOf, h, h', ih]

/-- Dict lookup returns a present binding. -/
theorem lookupEntry_some_mem (u : String) (e : CityEntry) (cd : List (String × CityEntry))
    (h : lookupEntry u cd = some e) : (u, e) ∈ cd := by
  induction cd with
  | nil => simp [lookupEntry] at h
  | cons p rest ih =>
    by_cases hp : p.1 = u
    · cases p with
      | mk k v =>
        simp only at hp
        subst hp
        simp [lookupEntry] at h
        subst h
        exact List.mem_cons_self _ _
    · simp only [lookupEntry, if_neg hp] at h
      exact List.mem_cons_of_mem _ (ih h)

/-- Dict update keeps the key list unchanged. -/
theorem keysOf_updateEntry (u : String) (f : CityEntry → CityEntry)
    (cd : List (String × CityEntry)) :
    keysOf (updateEntry u f cd) = keysOf cd := by
  induction cd with
  | nil => rfl
  | cons p rest ih =>
    simp only [keysOf] at ih ⊢
    by_cases h : p.1 = u
    · simp [updateEntry, h]
    · simp [updateEntry, h, ih]

/-- Every binding survives a dict update, either untouched or updated. -/
theorem updateEntry_mem_or (u : String) (f : CityEntry → CityEntry)
    (cd : List (String × CityEntry)) (p : String × CityEntry) (hp : p ∈ cd) :
    p ∈ updateEntry u f cd ∨ (p.1, f p.2) ∈ updateEntry u f cd := by
  induction cd with
  | nil => simp at hp
  | cons q rest ih =>
    by_cases h : q.1 = u
    · simp only [updateEntry, if_pos h]
      rcases List.mem_cons.mp hp with he | ht
      · subst he
        right
        exact List.mem_cons_self _ _
      · left
        exact List.mem_cons_of_mem _ ht
    · simp only [updateEntry, if_neg h]
      rcases List.mem_cons.mp hp with he | ht
      · subst he
        left
        exact List.mem_cons_self _ _
      · rcases ih ht with h1 | h1
        · left
          exact List.mem_cons_of_mem _ h1
        · right
          exact List.mem_cons_of_mem _ h1

/-- With distinct keys, a member of the updated dict is either an untouched
binding at another key, or the updated binding of the looked-up entry. -/
theorem updateEntry_mem_cases (u : String) (f : CityEntry → CityEntry) :
    ∀ (cd : List (String × CityEntry)), (keysOf cd).Nodup →
      ∀ p ∈ updateEntry u f cd,
        (p ∈ cd ∧ p.1 ≠ u)
        ∨ (∃ e, lookupEntry u cd = some e ∧ (u, e) ∈ cd ∧ p = (u, f e)) := by
  intro cd
  induction cd with
  | nil => intro _ p hp; simp [updateEntry] at hp
  | cons q rest ih =>
    intro hnd p hp
    have hnd1 : q.1 ∉ keysOf rest := by
      have := (List.nodup_cons.mp hnd).1
      simpa [keysOf] using this
    have hnd2 : (keysOf rest).Nodup := by
      have := (List.nodup_cons.mp hnd).2
      simpa [keysOf] using this
    by_cases h : q.1 = u
    · subst h
      simp [updateEntry] at hp
      rcases hp with he | ht
      · right
        refine ⟨q.2, ?_, ?_, ?_⟩
        · simp [lookupEntry]
        · exact List.mem_cons_self _ _
        · exact he
      · left
        refine ⟨List.mem_cons_of_mem _ ht, ?_⟩
        intro hu
        apply hnd1
        rw [← hu]
        simp only [keysOf]
        exact List.mem_map.mpr ⟨p, ht, rfl⟩
    · simp only [updateEntry, if_neg h] at hp
      rcases List.mem_cons.mp hp with he | ht
      · subst he
        left
        exact ⟨List.mem_cons_self _ _, fun hu => h hu⟩
      · rcases ih hnd2 p ht with ⟨hm, hne⟩ | ⟨e, hl, hm, he⟩
        · exact Or.inl ⟨List.mem_cons_of_mem _ hm, hne⟩
        · right
          refine ⟨e, ?_, List.mem_cons_of_mem _ hm, he⟩
          simpa [lookupEntry, h] using hl

/-- Membership of the observed-URL list. -/
theorem mem_observedUrls (u : String) (obs : List (String × RawHit)) :
    u ∈ observedUrls obs ↔ ∃ ob ∈ obs, urlOfHit ob.2 = some u := by
  simp [observedUrls, List.mem_filterMap]

/-- Observed URLs distribute over appending observation lists. -/
theorem observedUrls_append (l1 l2 : List (String × RawHit)) :
    observedUrls (l1 ++ l2) = observedUrls l1 ++ observedUrls l2 := by
  simp [observedUrls, List.filterMap_append]

/-- Appending an observation that hits the URL inserts its keyword. -/
theorem keywordsFor_append_hit (obs : List (String × RawHit)) (ob : String × RawHit)
    (u : String) (h : urlOfHit ob.2 = some u) :
    keywordsFor (obs ++ [ob]) u = insert ob.1 (keywordsFor obs u) := by
  unfold keywordsFor
  rw [List.filter_append]
  have hf : List.filter (fun x => decide (urlOfHit x.2 = some u)) [ob] = [ob] := by
    simp [h]
  rw [hf, List.map_append, List.toFinset_append]
  ext x
  simp [or_comm]

/-- Appending an observation that misses the URL leaves its keywords alone. -/
theorem keywordsFor_append_miss (obs : List (String × RawHit)) (ob : String × RawHit)
    (u : String) (h : ¬ urlOfHit ob.2 = some u) :
    keywordsFor (obs ++ [ob]) u = keywordsFor obs u := by
  unfold keywordsFor
  rw [List.filter_append]
  have hf : List.filter (fun x => decide (urlOfHit x.2 = some u)) [ob] = [] := by
    simp [h]
  rw [hf, List.append_nil]

/-- A URL never observed has an empty keyword set. -/
theorem keywordsFor_empty_of_not_observed (obs : List (String × RawHit)) (u : String)
    (h : u ∉ observedUrls obs) : keywordsFor obs u = ∅ := by
  unfold keywordsFor
  have hf : List.filter (fun x => decide (urlOfHit x.2 = some u)) obs = [] := by
    rw [List.filter_eq_nil_iff]
    intro ob hob
    simp only [decide_eq_true_eq]
    intro hc
    exact h ((mem_observedUrls u obs).mpr ⟨ob, hob, hc⟩)
  rw [hf]
  rfl

/-- The URL of an extracted record is the one built from its identifier. -/
theorem extract_maps_url (raw : RawHit) (d : PlaceData)
    (hx : ProduitsBio.extract_place_data raw = some d) :
    d.maps_url = build_maps_url (raw.place_id.getD "") := by
  cases hp : ProduitsBio.parse_city_postal (pyStrip (raw.formatted_address.getD "")) with
  | none => simp [ProduitsBio.extract_place_data, hp] at hx
  | some cp =>
    simp only [ProduitsBio.extract_place_data, hp, Option.some.injEq] at hx
    rw [← hx]

/-- The built URL always carries the non-empty constant prefix. -/
theorem build_maps_url_ne_empty (pid : String) : build_maps_url pid ≠ "" := by
  intro h
  have hl := congrArg String.length h
  unfold build_maps_url at hl
  rw [String.length_append] at hl
  have h46 : ("https://www.google.com/maps/place/?q=place_id:" : String).length = 46 := by rfl
  have h0 : ("" : String).length = 0 := by rfl
  rw [h46, h0] at hl
  omega

/-- The built URL determines the identifier. -/
theorem build_maps_url_inj (p q : String) (h : build_maps_url p = build_maps_url q) :
    p = q := by
  unfold build_maps_url at h
  have hd := congrArg String.data h
  rw [String.data_append, String.data_append] at hd
  have hr := List.append_cancel_left hd
  cases p
  cases q
  exact congrArg String.mk hr

/-- A successfully extracted hit is observed under its record's URL. -/
theorem urlOfHit_eq (raw : RawHit) (d : PlaceData)
    (hx : ProduitsBio.extract_place_data raw = some d) :
    urlOfHit raw = some d.maps_url := by
  simp [urlOfHit, hx]

/-- The invariant holds before any observation. -/
theorem Inv_nil (E : Finset String) : Inv E [] [] := by
  unfold Inv
  refine ⟨by simp [keysOf], by simp, ?_, by simp⟩
  intro u
  simp [keysOf, observedUrls]

/-- One observation step preserves the city invariant. -/
theorem observeHit_inv (pm prm : String → Option String) (E : Finset String)
    (obs : List (String × RawHit)) (cd cd' : List (String × CityEntry))
    (lckw : String) (raw : RawHit)
    (hInv : Inv E obs cd)
    (h : observeHit pm prm E cd lckw raw = some cd') :
    Inv E (obs ++ [(lckw, raw)]) cd' := by
  obtain ⟨hnd, hurl, hiff, hmk⟩ := hInv
  cases hx : ProduitsBio.extract_place_data raw with
  | none => simp [observeHit, hx] at h
  | some d =>
    have hhit : urlOfHit raw = some d.maps_url := urlOfHit_eq raw d hx
    have hne : d.maps_url ≠ "" := by
      rw [extract_maps_url raw d hx]
      exact build_maps_url_ne_empty _
    simp only [observeHit, hx] at h
    by_cases hskip : d.maps_url = "" ∨ d.maps_url ∈ E
    · rw [if_pos hskip] at h
      injection h with h
      subst h
      have hmem : d.maps_url ∈ E := by
        rcases hskip with h0 | h0
        · exact absurd h0 hne
        · exact h0
      refine ⟨hnd, hurl, ?_, ?_⟩
      · intro u
        rw [hiff u]
        constructor
        · rintro ⟨huE, hobs⟩
          refine ⟨huE, ?_⟩
          rw [observedUrls_append]
          exact List.mem_append_left _ hobs
        · rintro ⟨huE, hobs⟩
          refine ⟨huE, ?_⟩
          rw [observedUrls_append] at hobs
          rcases List.mem_append.mp hobs with h1 | h1
          · exact h1
          · exfalso
            have he : u = d.maps_url := by
              simpa [observedUrls, hhit] using h1
            exact huE (he ▸ hmem)
      · intro p hp
        rw [hmk p hp]
        refine (keywordsFor_append_miss obs (lckw, raw) p.1 ?_).symm
        have hp1 : p.1 ∈ keysOf cd := by
          simp only [keysOf]
          exact List.mem_map.mpr ⟨p, hp, rfl⟩
        have hpE : p.1 ∉ E := ((hiff p.1).mp hp1).1
        rw [hhit]
        intro hc
        injection hc with hc
        exact hpE (hc ▸ hmem)
    · have hskip' := not_or.mp hskip
      have hnotE : d.maps_url ∉ E := hskip'.2
      rw [if_neg hskip] at h
      cases hlk : lookupEntry d.maps_url cd with
      | some e =>
        simp only [hlk] at h
        injection h with h
        subst h
        have hkey : d.maps_url ∈ keysOf cd := by
          by_contra hc
          rw [← lookupEntry_none_iff] at hc
          rw [hc] at hlk
          cases hlk
        refine ⟨?_, ?_, ?_, ?_⟩
        · rw [keysOf_updateEntry]
          exact hnd
        · intro p hp
          rcases updateEntry_mem_cases d.maps_url (addCats pm prm lckw) cd hnd p hp with
            ⟨hm, _⟩ | ⟨e', _, hm', he'⟩
          · exact hurl p hm
          · subst he'
            simp only [addCats_data]
            exact hurl (d.maps_url, e') hm'
        · intro u
          rw [keysOf_updateEntry]
          constructor
          · intro hk
            rcases (hiff u).mp hk with ⟨huE, hobs⟩
            refine ⟨huE, ?_⟩
            rw [observedUrls_append]
            exact List.mem_append_left _ hobs
          · rintro ⟨huE, hobs⟩
            rw [observedUrls_append] at hobs
            rcases List.mem_append.mp hobs with h1 | h1
            · exact (hiff u).mpr ⟨huE, h1⟩
            · have he : u = d.maps_url := by
                simpa [observedUrls, hhit] using h1
              subst he
              exact hkey
        · intro p hp
          rcases updateEntry_mem_cases d.maps_url (addCats pm prm lckw) cd hnd p hp with
            ⟨hm, hneq⟩ | ⟨e', hl', hm', he'⟩
          · rw [hmk p hm]
            refine (keywordsFor_append_miss obs (lckw, raw) p.1 ?_).symm
            rw [hhit]
            intro hc
            injection hc with hc
            exact hneq hc.symm
          · subst he'
            simp only [addCats_mk]
            have hek : e'.matched_keywords = keywordsFor obs d.maps_url :=
              hmk (d.maps_url, e') hm'
            rw [hek]
            exact (keywordsFor_append_hit obs (lckw, raw) d.maps_url hhit).symm
      | none =>
        simp only [hlk] at h
        injection h with h
        subst h
        have hnotkey : d.maps_url ∉ keysOf cd := (lookupEntry_none_iff _ _).mp hlk
        have hkeys : keysOf (cd ++ [(d.maps_url, addCats pm prm lckw (initEntry d))]) =
            keysOf cd ++ [d.maps_url] := by
          simp [keysOf]
        refine ⟨?_, ?_, ?_, ?_⟩
        · rw [hkeys]
          rw [List.nodup_append]
          refine ⟨hnd, List.nodup_singleton _, ?_⟩
          intro a ha hb
          rw [List.mem_singleton] at hb
          subst hb
          exact hnotkey ha
        · intro p hp
          rcases List.mem_append.mp hp with hm | hm
          · exact hurl p hm
          · rw [List.mem_singleton] at hm
            subst hm
            simp only [addCats_data]
            exact extract_maps_url raw d hx ▸ rfl
        · intro u
          rw [hkeys]
          constructor
          · intro hk
            rcases List.mem_append.mp hk with h1 | h1
            · rcases (hiff u).mp h1 with ⟨huE, hobs⟩
              refine ⟨huE, ?_⟩
              rw [observedUrls_append]
              exact List.mem_append_left _ hobs
            · rw [List.mem_singleton] at h1
              subst h1
              refine ⟨hnotE, ?_⟩
              rw [observedUrls_append]
              refine List.mem_append_right _ ?_
              simp [observedUrls, hhit]
          · rintro ⟨huE, hobs⟩
            rw [observedUrls_append] at hobs
            rcases List.mem_append.mp hobs with h1 | h1
            · exact List.mem_append_left _ ((hiff u).mpr ⟨huE, h1⟩)
            · refine List.mem_append_right _ ?_
              rw [List.mem_singleton]
              simpa [observedUrls, hhit] using h1
        · intro p hp
          rcases List.mem_append.mp hp with hm | hm
          · rw [hmk p hm]
            refine (keywordsFor_append_miss obs (lckw, raw) p.1 ?_).symm
            rw [hhit]
            intro hc
            injection hc with hc
            apply hnotkey
            rw [hc]
            simp only [keysOf]
            exact List.mem_map.mpr ⟨p, hm, rfl⟩
          · rw [List.mem_singleton] at hm
            subst hm
            simp only [addCats_mk]
            have hemp : keywordsFor obs d.maps_url = ∅ := by
              apply keywordsFor_empty_of_not_observed
              intro hobs
              exact hnotkey ((hiff d.maps_url).mpr ⟨hnotE, hobs⟩)
            rw [keywordsFor_append_hit obs (lckw, raw) d.maps_url hhit, hemp]
            rfl

/-- Processing a list of observations preserves the invariant. -/
theorem processObs_inv (pm prm : String → Option String) (E : Finset String) :
    ∀ (rest : List (String × RawHit)) (cd cd' : List (String × CityEntry))
      (obs : List (String × RawHit)),
      Inv E obs cd → processObs pm prm E rest cd = some cd' →
      Inv E (obs ++ rest) cd' := by
  intro rest
  induction rest with
  | nil =>
    intro cd cd' obs hInv h
    simp only [processObs] at h
    injection h with h
    subst h
    rw [List.append_nil]
    exact hInv
  | cons ob rest ih =>
    intro cd cd' obs hInv h
    simp only [processObs] at h
    cases ho : observeHit pm prm E cd ob.1 ob.2 with
    | none => simp [ho] at h
    | some cdm =>
      simp only [ho] at h
      have hInv' : Inv E (obs ++ [ob]) cdm :=
        observeHit_inv pm prm E obs cd cdm ob.1 ob.2 hInv ho
      have hgoal : obs ++ ob :: rest = (obs ++ [ob]) ++ rest := by simp
      rw [hgoal]
      exact ih cdm cd' (obs ++ [ob]) hInv' h

/-- Splitting the observation list splits the processing. -/
theorem processObs_append (pm prm : String → Option String) (E : Finset String) :
    ∀ (l1 l2 : List (String × RawHit)) (cd : List (String × CityEntry)),
      processObs pm prm E (l1 ++ l2) cd =
        match processObs pm prm E l1 cd with
        | none => none
        | some cdm => processObs pm prm E l2 cdm := by
  intro l1
  induction l1 with
  | nil => intro l2 cd; rfl
  | cons ob rest ih =>
    intro l2 cd
    simp only [List.cons_append, processObs]
    cases ho : observeHit pm prm E cd ob.1 ob.2 with
    | none => rfl
    | some cdm => exact ih l2 cdm

/-- The per-keyword result loop is observation processing of that keyword's
hits. -/
theorem processHits_eq (pm prm : String → Option String) (E : Finset String) (lckw : String) :
    ∀ (rs : List RawHit) (cd : List (String × CityEntry)),
      processHits pm prm E lckw rs cd =
        processObs pm prm E (rs.map (fun r => (lckw, r))) cd := by
  intro rs
  induction rs with
  | nil => intro cd; rfl
  | cons r rest ih =>
    intro cd
    simp only [List.map_cons, processHits, processObs]
    cases ho : observeHit pm prm E cd lckw r with
    | none => rfl
    | some cdm => exact ih cdm

/-- The keyword loop of a city is observation processing of the flattened
observation sequence. -/
theorem processSearches_eq (pm prm : String → Option String) (E : Finset String) :
    ∀ (ss : List (String × List RawHit)) (cd : List (String × CityEntry)),
      processSearches pm prm E ss cd = processObs pm prm E (obsOf ss) cd := by
  intro ss
  induction ss with
  | nil => intro cd; rfl
  | cons s rest ih =>
    intro cd
    simp only [processSearches, obsOf]
    rw [processObs_append, ← processHits_eq]
    cases hh : processHits pm prm E (pyLower s.1) s.2 cd with
    | none => rfl
    | some cdm => exact ih cdm

/-- The invariant holds of one completed city crawl. -/
theorem processSearches_inv (pm prm : String → Option String) (E : Finset String)
    (ss : List (String × List RawHit)) (cd : List (String × CityEntry))
    (h : processSearches pm prm E ss [] = some cd) :
    Inv E (obsOf ss) cd := by
  rw [processSearches_eq] at h
  have hi := processObs_inv pm prm E (obsOf ss) [] cd [] (Inv_nil E) h
  simpa using hi

/-- One observation step never removes an entry and never shrinks its tag
sets. -/
theorem observeHit_grow (pm prm : String → Option String) (E : Finset String)
    (cd cd' : List (String × CityEntry)) (lckw : String) (raw : RawHit)
    (h : observeHit pm prm E cd lckw raw = some cd') :
    ∀ p ∈ cd, ∃ e2 : CityEntry, (p.1, e2) ∈ cd'
      ∧ p.2.matched_keywords ⊆ e2.matched_keywords
      ∧ p.2.place_category ⊆ e2.place_category
      ∧ p.2.product_category ⊆ e2.product_category := by
  intro p hp
  cases hx : ProduitsBio.extract_place_data raw with
  | none => simp [observeHit, hx] at h
  | some d =>
    simp only [observeHit, hx] at h
    by_cases hskip : d.maps_url = "" ∨ d.maps_url ∈ E
    · rw [if_pos hskip] at h
      injection h with h
      subst h
      exact ⟨p.2, hp, Finset.Subset.refl _, Finset.Subset.refl _, Finset.Subset.refl _⟩
    · rw [if_neg hskip] at h
      cases hlk : lookupEntry d.maps_url cd with
      | some e =>
        simp only [hlk] at h
        injection h with h
        subst h
        rcases updateEntry_mem_or d.maps_url (addCats pm prm lckw) cd p hp with h1 | h1
        · exact ⟨p.2, h1, Finset.Subset.refl _, Finset.Subset.refl _, Finset.Subset.refl _⟩
        · exact ⟨addCats pm prm lckw p.2, h1, addCats_mk_grow _ _ _ _,
            addCats_pc_grow _ _ _ _, addCats_prc_grow _ _ _ _⟩
      | none =>
        simp only [hlk] at h
        injection h with h
        subst h
        exact ⟨p.2, List.mem_append_left _ hp, Finset.Subset.refl _,
          Finset.Subset.refl _, Finset.Subset.refl _⟩

/-- Observation processing never removes an entry and never shrinks its tag
sets. -/
theorem processObs_grow (pm prm : String → Option String) (E : Finset String) :
    ∀ (obs2 : List (String × RawHit)) (cd cd2 : List (String × CityEntry)),
      processObs pm prm E obs2 cd = some cd2 →
      ∀ p ∈ cd, ∃ e2 : CityEntry, (p.1, e2) ∈ cd2
        ∧ p.2.matched_keywords ⊆ e2.matched_keywords
        ∧ p.2.place_category ⊆ e2.place_category
        ∧ p.2.product_category ⊆ e2.product_category := by
  intro obs2
  induction obs2 with
  | nil =>
    intro cd cd2 h p hp
    simp only [processObs] at h
    injection h with h
    subst h
    exact ⟨p.2, hp, Finset.Subset.refl _, Finset.Subset.refl _, Finset.Subset.refl _⟩
  | cons ob rest ih =>
    intro cd cd2 h p hp
    simp only [processObs] at h
    cases ho : observeHit pm prm E cd ob.1 ob.2 with
    | none => simp [ho] at h
    | some cdm =>
      simp only [ho] at h
      rcases observeHit_grow pm prm E cd cdm ob.1 ob.2 ho p hp with ⟨e1, hm1, s1, s2, s3⟩
      rcases ih cdm cd2 h (p.1, e1) hm1 with ⟨e2, hm2, t1, t2, t3⟩
      exact ⟨e2, hm2, s1.trans t1, s2.trans t2, s3.trans t3⟩

/-- A duplicate-free key list counts a member exactly once. -/
theorem countP_keys_eq_one (url : String) : ∀ (l : List String), l.Nodup → url ∈ l →
    l.countP (fun k => decide (k = url)) = 1 := by
  intro l
  induction l with
  | nil => intro _ h; simp at h
  | cons a t ih =>
    intro hnd hm
    have hnd' := List.nodup_cons.mp hnd
    rw [List.countP_cons]
    rcases List.mem_cons.mp hm with he | ht
    · subst he
      have h0 : t.countP (fun k => decide (k = url)) = 0 := by
        rw [List.countP_eq_zero]
        intro b hb
        simp only [decide_eq_true_eq]
        intro hc
        subst hc
        exact hnd'.1 hb
      simp [h0]
    · have hne : a ≠ url := by
        intro he
        subst he
        exact hnd'.1 ht
      rw [ih hnd'.2 ht]
      simp [hne]

/-- Counting flushed rows by URL is counting dict keys, since every entry sits
under its own record's URL. -/
theorem rows_countP_eq (url : String) (cd : List (String × CityEntry))
    (hurl : ∀ p ∈ cd, p.2.data.maps_url = p.1) :
    (cd.map (fun p => p.2)).countP (fun e => decide (e.data.maps_url = url)) =
      (keysOf cd).countP (fun k => decide (k = url)) := by
  rw [List.countP_map]
  simp only [keysOf]
  rw [List.countP_map]
  apply List.countP_congr
  intro p hp
  simp [Function.comp, hurl p hp]

/-- The rows one completed area flushes contain the URL exactly once when it
is newly observed there, and not at all otherwise. -/
theorem area_rows_count (pm prm : String → Option String) (url : String)
    (E : Finset String) (a : List (String × List RawHit))
    (cd : List (String × CityEntry))
    (h : processSearches pm prm E a [] = some cd) :
    ((cd.map (fun p => p.2)).countP (fun e => decide (e.data.maps_url = url)) =
      if url ∉ E ∧ url ∈ observedUrls (obsOf a) then 1 else 0)
    ∧ (url ∈ keysOf cd ↔ (url ∉ E ∧ url ∈ observedUrls (obsOf a))) := by
  obtain ⟨hnd, hurl, hiff, _⟩ := processSearches_inv pm prm E a cd h
  refine ⟨?_, hiff url⟩
  rw [rows_countP_eq url cd hurl]
  by_cases hc : url ∉ E ∧ url ∈ observedUrls (obsOf a)
  · rw [if_pos hc]
    exact countP_keys_eq_one url (keysOf cd) hnd ((hiff url).mpr hc)
  · rw [if_neg hc]
    rw [List.countP_eq_zero]
    intro k hk
    simp only [decide_eq_true_eq]
    intro he
    subst he
    exact hc ((hiff k).mp hk)

/-- Membership of the flushed existing-URL set. -/
theorem flush_existing_mem (st : RunState) (cd : List (String × CityEntry)) (u : String) :
    u ∈ (flushCity st cd).existing_urls ↔ u ∈ st.existing_urls ∨ u ∈ keysOf cd := by
  simp [flushCity, keysOf, List.mem_toFinset]

/-- The flushed table rows. -/
theorem flush_table (st : RunState) (cd : List (String × CityEntry)) :
    (flushCity st cd).table = st.table ++ cd.map (fun p => p.2) := rfl

/-- Once a URL is in existing_urls it stays there, and its row count never
changes again. -/
theorem runAreas_count_of_mem (pm prm : String → Option String) (url : String) :
    ∀ (areas : List (List (String × List RawHit))) (st st' : RunState),
      runAreas pm prm st areas = some st' →
      url ∈ st.existing_urls →
      st'.table.countP (fun e => decide (e.data.maps_url = url)) =
        st.table.countP (fun e => decide (e.data.maps_url = url))
      ∧ url ∈ st'.existing_urls := by
  intro areas
  induction areas with
  | nil =>
    intro st st' h hm
    simp only [runAreas] at h
    injection h with h
    subst h
    exact ⟨rfl, hm⟩
  | cons a rest ih =>
    intro st st' h hm
    simp only [runAreas] at h
    cases hpa : processArea pm prm st a with
    | none => simp [hpa] at h
    | some st1 =>
      simp only [hpa] at h
      unfold processArea at hpa
      cases hps : processSearches pm prm st.existing_urls a [] with
      | none => simp [hps] at hpa
      | some cd =>
        simp only [hps] at hpa
        injection hpa with hpa
        subst hpa
        have hcount := (area_rows_count pm prm url st.existing_urls a cd hps).1
        have hzero : (cd.map (fun p => p.2)).countP
            (fun e => decide (e.data.maps_url = url)) = 0 := by
          rw [hcount, if_neg]
          intro hc
          exact hc.1 hm
        have hm1 : url ∈ (flushCity st cd).existing_urls :=
          (flush_existing_mem st cd url).mpr (Or.inl hm)
        have hrec := ih (flushCity st cd) st' h hm1
        refine ⟨?_, hrec.2⟩
        rw [hrec.1, flush_table, List.countP_append, hzero]
        omega

/-- A URL absent from existing_urls and unobserved by any remaining area is
never flushed and never enters existing_urls. -/
theorem runAreas_count_none (pm prm : String → Option String) (url : String) :
    ∀ (areas : List (List (String × List RawHit))) (st st' : RunState),
      runAreas pm prm st areas = some st' →
      url ∉ st.existing_urls →
      (∀ a ∈ areas, url ∉ observedUrls (obsOf a)) →
      st'.table.countP (fun e => decide (e.data.maps_url = url)) =
        st.table.countP (fun e => decide (e.data.maps_url = url))
      ∧ url ∉ st'.existing_urls := by
  intro areas
  induction areas with
  | nil =>
    intro st st' h hm _
    simp only [runAreas] at h
    injection h with h
    subst h
    exact ⟨rfl, hm⟩
  | cons a rest ih =>
    intro st st' h hm hobs
    simp only [runAreas] at h
    cases hpa : processArea pm prm st a with
    | none => simp [hpa] at h
    | some st1 =>
      simp only [hpa] at h
      unfold processArea at hpa
      cases hps : processSearches pm prm st.existing_urls a [] with
      | none => simp [hps] at hpa
      | some cd =>
        simp only [hps] at hpa
        injection hpa with hpa
        subst hpa
        have harea := area_rows_count pm prm url st.existing_urls a cd hps
        have hzero : (cd.map (fun p => p.2)).countP
            (fun e => decide (e.data.maps_url = url)) = 0 := by
          rw [harea.1, if_neg]
          intro hc
          exact hobs a (List.mem_cons_self _ _) hc.2
        have hnk : url ∉ keysOf cd := by
          intro hk
          exact hobs a (List.mem_cons_self _ _) ((harea.2).mp hk).2
        have hm1 : url ∉ (flushCity st cd).existing_urls := by
          rw [flush_existing_mem]
          rintro (hc | hc)
          · exact hm hc
          · exact hnk hc
        have hrec := ih (flushCity st cd) st' h hm1 (fun b hb => hobs b (List.mem_cons_of_mem _ hb))
        refine ⟨?_, hrec.2⟩
        rw [hrec.1, flush_table, List.countP_append, hzero]
        omega

/-- A URL not yet persisted but observed by some remaining area gains exactly
one row over the rest of the run. -/
theorem runAreas_count_one (pm prm : String → Option String) (url : String) :
    ∀ (areas : List (List (String × List RawHit))) (st st' : RunState),
      runAreas pm prm st areas = some st' →
      url ∉ st.existing_urls →
      (∃ a ∈ areas, url ∈ observedUrls (obsOf a)) →
      st'.table.countP (fun e => decide (e.data.maps_url = url)) =
        st.table.countP (fun e => decide (e.data.maps_url = url)) + 1 := by
  intro areas
  induction areas with
  | nil =>
    intro st st' h hm hex
    rcases hex with ⟨a, ha, _⟩
    simp at ha
  | cons a rest ih =>
    intro st st' h hm hex
    simp only [runAreas] at h
    cases hpa : processArea pm prm st a with
    | none => simp [hpa] at h
    | some st1 =>
      simp only [hpa] at h
      unfold processArea at hpa
      cases hps : processSearches pm prm st.existing_urls a [] with
      | none => simp [hps] at hpa
      | some cd =>
        simp only [hps] at hpa
        injection hpa with hpa
        subst hpa
        have harea := area_rows_count pm prm url st.existing_urls a cd hps
        by_cases hobs : url ∈ observedUrls (obsOf a)
        · have hone : (cd.map (fun p => p.2)).countP
              (fun e => decide (e.data.maps_url = url)) = 1 := by
            rw [harea.1, if_pos ⟨hm, hobs⟩]
          have hm1 : url ∈ (flushCity st cd).existing_urls := by
            rw [flush_existing_mem]
            exact Or.inr ((harea.2).mpr ⟨hm, hobs⟩)
          have hrec := runAreas_count_of_mem pm prm url rest (flushCity st cd) st' h hm1
          rw [hrec.1, flush_table, List.countP_append, hone]
        · have hzero : (cd.map (fun p => p.2)).countP
              (fun e => decide (e.data.maps_url = url)) = 0 := by
            rw [harea.1, if_neg]
            intro hc
            exact hobs hc.2
          have hnk : url ∉ keysOf cd := by
            intro hk
            exact hobs ((harea.2).mp hk).2
          have hm1 : url ∉ (flushCity st cd).existing_urls := by
            rw [flush_existing_mem]
            rintro (hc | hc)
            · exact hm hc
            · exact hnk hc
          have hex' : ∃ b ∈ rest, url ∈ observedUrls (obsOf b) := by
            rcases hex with ⟨b, hb, hobs'⟩
            rcases List.mem_cons.mp hb with he | hbr
            · subst he
              exact absurd hobs' hobs
            · exact ⟨b, hbr, hobs'⟩
          have hrec := ih (flushCity st cd) st' h hm1 hex'
          rw [hrec, flush_table, List.countP_append, hzero]

end RunAll

/-! Claim theorems: deduplication and tag-union (C1). -/

/-- C1: within one city's crawl from persisted set E, a URL not in E that is
observed at least once gets exactly one flushed row whose matched-keyword set
is exactly the set of lowercased keywords whose searches returned a hit with
that URL (first conjunct); over a whole run started on persisted set E,
exactly one row is ever flushed for such a URL across all areas (second
conjunct); and continuing to process further observations never removes an
entry and never shrinks its matched-keyword, place-category or
product-category sets (third conjunct). -/
theorem run_all_dedup_union (pm prm : String → Option String) (E : Finset String)
    (url : String) :
    (∀ (searches : List (String × List RawHit)) (cd : List (String × RunAll.CityEntry)),
      RunAll.processSearches pm prm E searches [] = some cd →
      url ∉ E →
      url ∈ RunAll.observedUrls (RunAll.obsOf searches) →
      (cd.map (fun p => p.2)).countP (fun e => decide (e.data.maps_url = url)) = 1
      ∧ ∀ e : RunAll.CityEntry, (url, e) ∈ cd →
          e.matched_keywords = RunAll.keywordsFor (RunAll.obsOf searches) url)
    ∧ (∀ (areas : List (List (String × List RawHit))) (st' : RunAll.RunState),
        RunAll.runAreas pm prm ⟨[], E⟩ areas = some st' →
        url ∉ E →
        (∃ a ∈ areas, url ∈ RunAll.observedUrls (RunAll.obsOf a)) →
        st'.table.countP (fun e => decide (e.data.maps_url = url)) = 1)
    ∧ (∀ (obs obs2 : List (String × RawHit)) (cd cd2 : List (String × RunAll.CityEntry)),
        RunAll.processObs pm prm E obs [] = some cd →
        RunAll.processObs pm prm E obs2 cd = some cd2 →
        ∀ p ∈ cd, ∃ e2 : RunAll.CityEntry, (p.1, e2) ∈ cd2
          ∧ p.2.matched_keywords ⊆ e2.matched_keywords
          ∧ p.2.place_category ⊆ e2.place_category
          ∧ p.2.product_category ⊆ e2.product_category) := by
  refine ⟨?_, ?_, ?_⟩
  · intro searches cd h hnot hobs
    obtain ⟨hnd, hurl, hiff, hmk⟩ := RunAll.processSearches_inv pm prm E searches cd h
    refine ⟨?_, ?_⟩
    · rw [RunAll.rows_countP_eq url cd hurl]
      exact RunAll.countP_keys_eq_one url (RunAll.keysOf cd) hnd ((hiff url).mpr ⟨hnot, hobs⟩)
    · intro e he
      exact hmk (url, e) he
  · intro areas st' h hnot hex
    have hone := RunAll.runAreas_count_one pm prm url areas ⟨[], E⟩ st' h hnot hex
    simpa using hone
  · intro obs obs2 cd cd2 _ h2
    exact RunAll.processObs_grow pm prm E obs2 cd cd2 h2

/-- Witness for run_all_dedup_union on the one-hit demo crawl. -/
theorem run_all_dedup_union_witness :
    ((demoCd.map (fun p => p.2)).countP (fun e => decide (e.data.maps_url = demoUrl)) = 1
      ∧ ∀ e : RunAll.CityEntry, (demoUrl, e) ∈ demoCd →
          e.matched_keywords = RunAll.keywordsFor (RunAll.obsOf demoSearches) demoUrl)
    ∧ demoSt.table.countP (fun e => decide (e.data.maps_url = demoUrl)) = 1 :=
  ⟨(run_all_dedup_union (fun _ => none) (fun _ => none) ∅ demoUrl).1 demoSearches demoCd
      (by decide) (by decide) (by decide),
   (run_all_dedup_union (fun _ => none) (fun _ => none) ∅ demoUrl).2.1 [demoSearches] demoSt
      (by decide) (by decide) ⟨demoSearches, by simp, by decide⟩⟩

/-! Run-level lemmas for durability, idempotence and the table invariant. -/

namespace RunAll

/-- Running a split area list runs the pieces in sequence. -/
theorem runAreas_split (pm prm : String → Option String) :
    ∀ (l1 l2 : List (List (String × List RawHit))) (st : RunState),
      runAreas pm prm st (l1 ++ l2) =
        match runAreas pm prm st l1 with
        | none => none
        | some st1 => runAreas pm prm st1 l2 := by
  intro l1
  induction l1 with
  | nil => intro l2 st; rfl
  | cons a rest ih =>
    intro l2 st
    simp only [List.cons_append, runAreas]
    cases hpa : processArea pm prm st a with
    | none => rfl
    | some st1 => exact ih l2 st1

/-- The table only ever grows by appending. -/
theorem runAreas_table_extend (pm prm : String → Option String) :
    ∀ (areas : List (List (String × List RawHit))) (st st' : RunState),
      runAreas pm prm st areas = some st' → ∃ t, st'.table = st.table ++ t := by
  intro areas
  induction areas with
  | nil =>
    intro st st' h
    simp only [runAreas] at h
    injection h with h
    subst h
    exact ⟨[], by simp⟩
  | cons a rest ih =>
    intro st st' h
    simp only [runAreas] at h
    cases hpa : processArea pm prm st a with
    | none => simp [hpa] at h
    | some st1 =>
      simp only [hpa] at h
      rcases ih st1 st' h with ⟨t, ht⟩
      unfold processArea at hpa
      cases hps : processSearches pm prm st.existing_urls a [] with
      | none => simp [hps] at hpa
      | some cd =>
        simp only [hps] at hpa
        injection hpa with hpa
        subst hpa
        refine ⟨cd.map (fun p => p.2) ++ t, ?_⟩
        rw [ht, flush_table, List.append_assoc]

/-- The existing-URL set only ever grows. -/
theorem runAreas_existing_mono (pm prm : String → Option String) :
    ∀ (areas : List (List (String × List RawHit))) (st st' : RunState),
      runAreas pm prm st areas = some st' →
      st.existing_urls ⊆ st'.existing_urls := by
  intro areas
  induction areas with
  | nil =>
    intro st st' h
    simp only [runAreas] at h
    injection h with h
    subst h
    exact Finset.Subset.refl _
  | cons a rest ih =>
    intro st st' h
    simp only [runAreas] at h
    cases hpa : processArea pm prm st a with
    | none => simp [hpa] at h
    | some st1 =>
      simp only [hpa] at h
      unfold processArea at hpa
      cases hps : processSearches pm prm st.existing_urls a [] with
      | none => simp [hps] at hpa
      | some cd =>
        simp only [hps] at hpa
        injection hpa with hpa
        subst hpa
        refine Finset.Subset.trans ?_ (ih (flushCity st cd) st' h)
        intro u hu
        exact (flush_existing_mem st cd u).mpr (Or.inl hu)

/-- Every observation a successful processing consumed extracted cleanly. -/
theorem processObs_all_extract (pm prm : String → Option String) (E : Finset String) :
    ∀ (obs : List (String × RawHit)) (cd cd' : List (String × CityEntry)),
      processObs pm prm E obs cd = some cd' →
      ∀ ob ∈ obs, urlOfHit ob.2 ≠ none := by
  intro obs
  induction obs with
  | nil => intro cd cd' _ ob hob; simp at hob
  | cons ob0 rest ih =>
    intro cd cd' h ob hob
    simp only [processObs] at h
    cases ho : observeHit pm prm E cd ob0.1 ob0.2 with
    | none => simp [ho] at h
    | some cdm =>
      simp only [ho] at h
      rcases List.mem_cons.mp hob with he | ht
      · subst he
        cases hx : ProduitsBio.extract_place_data ob.2 with
        | none => simp [observeHit, hx] at ho
        | some d => simp [urlOfHit, hx]
      · exact ih cdm cd' h ob ht

/-- Observations whose URLs are all already persisted are all skipped. -/
theorem processObs_skip_all (pm prm : String → Option String) (E' : Finset String) :
    ∀ (obs : List (String × RawHit)),
      (∀ ob ∈ obs, ∃ u, urlOfHit ob.2 = some u ∧ u ∈ E') →
      ∀ cd, processObs pm prm E' obs cd = some cd := by
  intro obs
  induction obs with
  | nil => intro _ cd; rfl
  | cons ob rest ih =>
    intro hall cd
    simp only [processObs]
    rcases hall ob (List.mem_cons_self _ _) with ⟨u, hu, huE⟩
    cases hx : ProduitsBio.extract_place_data ob.2 with
    | none => simp [urlOfHit, hx] at hu
    | some d =>
      have hdu : d.maps_url = u := by
        rw [urlOfHit_eq ob.2 d hx] at hu
        injection hu
      have hskip : d.maps_url = "" ∨ d.maps_url ∈ E' := Or.inr (hdu ▸ huE)
      have hobs : observeHit pm prm E' cd ob.1 ob.2 = some cd := by
        simp only [observeHit, hx]
        rw [if_pos hskip]
      simp only [hobs]
      exact ih (fun b hb => hall b (List.mem_cons_of_mem _ hb)) cd

/-- Every URL a completed city observed is either already persisted or among
its flushed keys. -/
theorem processSearches_covered (pm prm : String → Option String) (E : Finset String)
    (a : List (String × List RawHit)) (cd : List (String × CityEntry))
    (h : processSearches pm prm E a [] = some cd) :
    ∀ ob ∈ obsOf a, ∃ u, urlOfHit ob.2 = some u ∧ (u ∈ E ∨ u ∈ keysOf cd) := by
  intro ob hob
  have h' := h
  rw [processSearches_eq] at h'
  have hex := processObs_all_extract pm prm E (obsOf a) [] cd h' ob hob
  cases hu : urlOfHit ob.2 with
  | none => exact absurd hu hex
  | some u =>
    refine ⟨u, rfl, ?_⟩
    by_cases huE : u ∈ E
    · exact Or.inl huE
    · right
      obtain ⟨_, _, hiff, _⟩ := processSearches_inv pm prm E a cd h
      refine (hiff u).mpr ⟨huE, ?_⟩
      exact (mem_observedUrls u (obsOf a)).mpr ⟨ob, hob, hu⟩

/-- Re-running the areas from any state whose existing-URL set covers the
first run's final set changes nothing. -/
theorem runAreas_second_fixed (pm prm : String → Option String) :
    ∀ (areas : List (List (String × List RawHit))) (st1 stN : RunState),
      runAreas pm prm st1 areas = some stN →
      ∀ (T : List CityEntry) (E' : Finset String),
        stN.existing_urls ⊆ E' →
        runAreas pm prm ⟨T, E'⟩ areas = some ⟨T, E'⟩ := by
  intro areas
  induction areas with
  | nil => intro st1 stN _ T E' _; rfl
  | cons a rest ih =>
    intro st1 stN h T E' hsub
    simp only [runAreas] at h ⊢
    cases hpa : processArea pm prm st1 a with
    | none => simp [hpa] at h
    | some st2 =>
      simp only [hpa] at h
      unfold processArea at hpa
      cases hps : processSearches pm prm st1.existing_urls a [] with
      | none => simp [hps] at hpa
      | some cd =>
        simp only [hps] at hpa
        injection hpa with hpa
        subst hpa
        have hmono := runAreas_existing_mono pm prm rest (flushCity st1 cd) stN h
        have hcover := processSearches_covered pm prm st1.existing_urls a cd hps
        have hall : ∀ ob ∈ obsOf a, ∃ u, urlOfHit ob.2 = some u ∧ u ∈ E' := by
          intro ob hob
          rcases hcover ob hob with ⟨u, hu, hor⟩
          refine ⟨u, hu, hsub (hmono ?_)⟩
          rcases hor with h1 | h1
          · exact (flush_existing_mem st1 cd u).mpr (Or.inl h1)
          · exact (flush_existing_mem st1 cd u).mpr (Or.inr h1)
        have hskip : processSearches pm prm E' a [] = some [] := by
          rw [processSearches_eq]
          exact processObs_skip_all pm prm E' (obsOf a) hall []
        have hpa2 : processArea pm prm ⟨T, E'⟩ a = some ⟨T, E'⟩ := by
          unfold processArea
          simp only [hskip]
          simp [flushCity]
        simp only [hpa2]
        exact ih (flushCity st1 cd) stN h T E' hsub

/-- The existing-URL set is always the initial set plus the URLs of the rows
appended so far. -/
theorem runAreas_acc (pm prm : String → Option String) (E0 : Finset String) :
    ∀ (areas : List (List (String × List RawHit))) (st st' : RunState),
      runAreas pm prm st areas = some st' →
      st.existing_urls = E0 ∪ (st.table.map (fun e => e.data.maps_url)).toFinset →
      st'.existing_urls = E0 ∪ (st'.table.map (fun e => e.data.maps_url)).toFinset := by
  intro areas
  induction areas with
  | nil =>
    intro st st' h hacc
    simp only [runAreas] at h
    injection h with h
    subst h
    exact hacc
  | cons a rest ih =>
    intro st st' h hacc
    simp only [runAreas] at h
    cases hpa : processArea pm prm st a with
    | none => simp [hpa] at h
    | some st1 =>
      simp only [hpa] at h
      unfold processArea at hpa
      cases hps : processSearches pm prm st.existing_urls a [] with
      | none => simp [hps] at hpa
      | some cd =>
        simp only [hps] at hpa
        injection hpa with hpa
        subst hpa
        obtain ⟨_, hurl, _, _⟩ := processSearches_inv pm prm st.existing_urls a cd hps
        have hkeys : (cd.map (fun p => p.2)).map (fun e => e.data.maps_url) =
            cd.map (fun p => p.1) := by
          rw [List.map_map]
          apply List.map_congr_left
          intro p hp
          exact hurl p hp
        apply ih (flushCity st cd) st' h
        show st.existing_urls ∪ (cd.map (fun p => p.1)).toFinset =
          E0 ∪ (((st.table ++ cd.map (fun p => p.2)).map
            (fun e => e.data.maps_url)).toFinset)
        rw [List.map_append, List.toFinset_append, hkeys, hacc, Finset.union_assoc]

/-- Appended row URLs stay distinct from everything already in the table, and
every table URL is in the existing-URL set. -/
theorem runAreas_nodup (pm prm : String → Option String) :
    ∀ (areas : List (List (String × List RawHit))) (L : List String) (st st' : RunState),
      runAreas pm prm st areas = some st' →
      (L ++ st.table.map (fun e => e.data.maps_url)).Nodup →
      (∀ u ∈ L ++ st.table.map (fun e => e.data.maps_url), u ∈ st.existing_urls) →
      (L ++ st'.table.map (fun e => e.data.maps_url)).Nodup
      ∧ (∀ u ∈ L ++ st'.table.map (fun e => e.data.maps_url), u ∈ st'.existing_urls) := by
  intro areas
  induction areas with
  | nil =>
    intro L st st' h hnd hcov
    simp only [runAreas] at h
    injection h with h
    subst h
    exact ⟨hnd, hcov⟩
  | cons a rest ih =>
    intro L st st' h hnd hcov
    simp only [runAreas] at h
    cases hpa : processArea pm prm st a with
    | none => simp [hpa] at h
    | some st1 =>
      simp only [hpa] at h
      unfold processArea at hpa
      cases hps : processSearches pm prm st.existing_urls a [] with
      | none => simp [hps] at hpa
      | some cd =>
        simp only [hps] at hpa
        injection hpa with hpa
        subst hpa
        obtain ⟨hndk, hurl, hiff, _⟩ := processSearches_inv pm prm st.existing_urls a cd hps
        have hkeys : (cd.map (fun p => p.2)).map (fun e => e.data.maps_url) =
            keysOf cd := by
          simp only [keysOf]
          rw [List.map_map]
          apply List.map_congr_left
          intro p hp
          exact hurl p hp
        have harr : L ++ (flushCity st cd).table.map (fun e => e.data.maps_url) =
            (L ++ st.table.map (fun e => e.data.maps_url)) ++ keysOf cd := by
          rw [flush_table, List.map_append, hkeys, List.append_assoc]
        have hnd1 : (L ++ (flushCity st cd).table.map (fun e => e.data.maps_url)).Nodup := by
          rw [harr, List.nodup_append]
          refine ⟨hnd, hndk, ?_⟩
          intro u hu hk
          exact ((hiff u).mp hk).1 (hcov u hu)
        have hcov1 : ∀ u ∈ L ++ (flushCity st cd).table.map (fun e => e.data.maps_url),
            u ∈ (flushCity st cd).existing_urls := by
          intro u hu
          rw [harr] at hu
          rcases List.mem_append.mp hu with h1 | h1
          · exact (flush_existing_mem st cd u).mpr (Or.inl (hcov u h1))
          · exact (flush_existing_mem st cd u).mpr (Or.inr h1)
        exact ih L (flushCity st cd) st' h hnd1 hcov1

end RunAll

namespace Producteurs

/-- Either an observation changes nothing, or it appends exactly one row for a
fresh identifier and marks that identifier seen. -/
theorem step_cases (seen : Finset String) (rows : List Row) (kw : String) (place : RawHit) :
    (step seen rows kw place = (seen, rows))
    ∨ ∃ pid, place.place_id = some pid ∧ pid ∉ seen ∧ pid ≠ ""
        ∧ (step seen rows kw place).1 = insert pid seen
        ∧ ∃ row, (step seen rows kw place).2 = rows ++ [row]
            ∧ row.maps_url = build_maps_url pid := by
  cases hpid : place.place_id with
  | none => left; simp [step, hpid]
  | some pid =>
    simp only [step, hpid]
    split_ifs with h1 h2
    · left; rfl
    · right
      rw [not_or] at h1
      exact ⟨pid, rfl, h1.2, h1.1, rfl, ⟨_, rfl, rfl⟩⟩
    · left; rfl

/-- Within one run the appended rows carry pairwise distinct URLs, each built
from a seen identifier. -/
theorem runObs_nodup : ∀ (obs : List (String × RawHit)) (seen : Finset String)
    (rows : List Row),
    (rows.map (fun r => r.maps_url)).Nodup →
    (∀ r ∈ rows, ∃ p ∈ seen, r.maps_url = build_maps_url p) →
    (((runObs obs seen rows).2.map (fun r => r.maps_url)).Nodup
     ∧ ∀ r ∈ (runObs obs seen rows).2,
         ∃ p ∈ (runObs obs seen rows).1, r.maps_url = build_maps_url p) := by
  intro obs
  induction obs with
  | nil => intro seen rows hnd hex; exact ⟨hnd, hex⟩
  | cons ob rest ih =>
    intro seen rows hnd hex
    simp only [runObs]
    rcases step_cases seen rows ob.1 ob.2 with heq | ⟨pid, _, hns, _, h1, row, h2, hurl⟩
    · rw [heq]
      exact ih seen rows hnd hex
    · rw [h1, h2]
      apply ih
      · rw [List.map_append, List.nodup_append]
        refine ⟨hnd, by simp, ?_⟩
        intro u hu hu2
        simp only [List.map_cons, List.map_nil, List.mem_singleton] at hu2
        subst hu2
        rcases List.mem_map.mp hu with ⟨r, hr, hru⟩
        rcases hex r hr with ⟨p, hp, hpu⟩
        have hbb : build_maps_url p = build_maps_url pid := by
          rw [← hpu, hru, hurl]
        exact hns ((RunAll.build_maps_url_inj p pid hbb) ▸ hp)
      · intro r hr
        rcases List.mem_append.mp hr with hold | hnew
        · rcases hex r hold with ⟨p, hp, hpu⟩
          exact ⟨p, Finset.mem_insert_of_mem hp, hpu⟩
        · rw [List.mem_singleton] at hnew
          subst hnew
          exact ⟨pid, Finset.mem_insert_self _ _, hurl⟩

end Producteurs

/-! Claim theorems: incremental durability (C5). -/

/-- C5: interrupting the orchestrator after completing area i leaves exactly
the rows of areas 1..i in the table: the full run's table extends the
interrupted run's table by appending only (the sink is written at area
boundaries), and the remaining rows are exactly what processing areas i+1..N
from the interrupted state appends. -/
theorem incremental_durability (pm prm : String → Option String)
    (areas : List (List (String × List RawHit))) (i : Nat)
    (st sti stN : RunAll.RunState)
    (hi : RunAll.runAreas pm prm st (areas.take i) = some sti)
    (hN : RunAll.runAreas pm prm st areas = some stN) :
    (∃ rest, stN.table = sti.table ++ rest)
    ∧ RunAll.runAreas pm prm sti (areas.drop i) = some stN := by
  have hsplit := RunAll.runAreas_split pm prm (areas.take i) (areas.drop i) st
  rw [List.take_append_drop] at hsplit
  rw [hN] at hsplit
  simp only [hi] at hsplit
  exact ⟨RunAll.runAreas_table_extend pm prm _ sti stN hsplit.symm, hsplit.symm⟩

/-- Witness for incremental_durability: two demo areas interrupted after the
first. -/
theorem incremental_durability_witness :
    (∃ rest, demoSt2.table = demoSt.table ++ rest)
    ∧ RunAll.runAreas (fun _ => none) (fun _ => none) demoSt
        ([demoSearches, demoSearches2].drop 1) = some demoSt2 :=
  incremental_durability (fun _ => none) (fun _ => none) [demoSearches, demoSearches2] 1
    ⟨[], ∅⟩ demoSt demoSt2 (by decide) (by decide)

/-! Claim theorems: idempotent second run (C2). -/

/-- C2 counterexample: scraper_producteurs.py starts its seen-set empty
without reading the existing table, so running it a second time against the
unchanged upstream re-appends every row instead of appending zero. -/
theorem producteurs_second_run_duplicates :
    (Producteurs.mainTable none demoFarmObs).rows.length = 1
    ∧ (Producteurs.mainTable (some (Producteurs.mainTable none demoFarmObs))
        demoFarmObs).rows.length = 2
    ∧ Producteurs.mainTable (some (Producteurs.mainTable none demoFarmObs)) demoFarmObs ≠
        Producteurs.mainTable none demoFarmObs := by decide

/-- C2 amended: for the aggregated orchestrator run_all_scraper.py, whose
existing-URL set is loaded once at startup from the persisted table, a second
run against the same upstream and table appends zero rows and returns the
identical table and URL set: every entry's URL is already in the loaded set,
so it is silently dropped. -/
theorem second_run_appends_zero_rows (pm prm : String → Option String)
    (t0 : Option (CsvTable RunAll.CityEntry))
    (areas : List (List (String × List RawHit)))
    (t1 : CsvTable RunAll.CityEntry) (E1 : Finset String)
    (h1 : RunAll.run_all_main pm prm t0 areas = some (t1, E1)) :
    RunAll.run_all_main pm prm (some t1) areas = some (t1, E1) := by
  cases hrun : RunAll.runAreas pm prm
      ⟨[], ((ensureCsv t0).rows.map (fun e => e.data.maps_url)).toFinset⟩ areas with
  | none => simp [RunAll.run_all_main, hrun] at h1
  | some st =>
    simp only [RunAll.run_all_main, hrun, Option.some.injEq, Prod.mk.injEq] at h1
    obtain ⟨ht1, hE1⟩ := h1
    have hacc := RunAll.runAreas_acc pm prm
      ((ensureCsv t0).rows.map (fun e => e.data.maps_url)).toFinset areas
      ⟨[], ((ensureCsv t0).rows.map (fun e => e.data.maps_url)).toFinset⟩ st hrun
      (by simp)
    have hE0' : ((ensureCsv (some t1)).rows.map (fun e => e.data.maps_url)).toFinset = E1 := by
      rw [← hE1, ← ht1]
      simp only [ensureCsv, List.map_append, List.toFinset_append]
      exact hacc.symm
    have hfix := RunAll.runAreas_second_fixed pm prm areas
      ⟨[], ((ensureCsv t0).rows.map (fun e => e.data.maps_url)).toFinset⟩ st hrun
      [] E1 (by intro u hu; rw [← hE1]; exact hu)
    simp only [RunAll.run_all_main]
    rw [hE0']
    simp only [hfix]
    simp [ensureCsv, ← ht1]

/-- Witness for second_run_appends_zero_rows on the one-area demo run. -/
theorem second_run_appends_zero_rows_witness :
    RunAll.run_all_main (fun _ => none) (fun _ => none) none [demoSearches] =
      some (demoT1, demoE1)
    ∧ RunAll.run_all_main (fun _ => none) (fun _ => none) (some demoT1) [demoSearches] =
      some (demoT1, demoE1) :=
  ⟨by decide,
   second_run_appends_zero_rows (fun _ => none) (fun _ => none) none [demoSearches]
     demoT1 demoE1 (by decide)⟩

/-! Claim theorems: persisted-table invariant (C9). -/

/-- C9: in run_all_scraper.py the header flag is written only at table
creation and never changed, rows are only ever appended, and if the initial
table's URLs are duplicate-free then so are the final table's (no identifier
appears in two rows over the run); in scraper_producteurs.py the header and
append behaviour are the same and the rows appended within one run carry
pairwise distinct identifiers. -/
theorem table_invariant_preserved (pm prm : String → Option String)
    (t0 : Option (CsvTable RunAll.CityEntry))
    (areas : List (List (String × List RawHit)))
    (t' : CsvTable RunAll.CityEntry) (E' : Finset String)
    (hrun : RunAll.run_all_main pm prm t0 areas = some (t', E'))
    (hnodup : ((ensureCsv t0).rows.map (fun e => e.data.maps_url)).Nodup) :
    t'.header_written = (ensureCsv t0).header_written
    ∧ (∃ newRows, t'.rows = (ensureCsv t0).rows ++ newRows)
    ∧ (t'.rows.map (fun e => e.data.maps_url)).Nodup
    ∧ (∀ (pt0 : Option (CsvTable Producteurs.Row)) (obs : List (String × RawHit)),
        (Producteurs.mainTable pt0 obs).header_written = (ensureCsv pt0).header_written
        ∧ (∃ newRows, (Producteurs.mainTable pt0 obs).rows =
            (ensureCsv pt0).rows ++ newRows)
        ∧ (((Producteurs.runObs obs ∅ []).2).map (fun r => r.maps_url)).Nodup) := by
  cases hrunA : RunAll.runAreas pm prm
      ⟨[], ((ensureCsv t0).rows.map (fun e => e.data.maps_url)).toFinset⟩ areas with
  | none => simp [RunAll.run_all_main, hrunA] at hrun
  | some st =>
    simp only [RunAll.run_all_main, hrunA, Option.some.injEq, Prod.mk.injEq] at hrun
    obtain ⟨ht, hE⟩ := hrun
    have hnd := RunAll.runAreas_nodup pm prm areas
      ((ensureCsv t0).rows.map (fun e => e.data.maps_url))
      ⟨[], ((ensureCsv t0).rows.map (fun e => e.data.maps_url)).toFinset⟩ st hrunA
      (by simpa using hnodup)
      (by
        intro u hu
        simp only [List.map_nil, List.append_nil] at hu
        exact List.mem_toFinset.mpr hu)
    refine ⟨?_, ?_, ?_, ?_⟩
    · rw [← ht]
    · rw [← ht]
      exact ⟨st.table, rfl⟩
    · rw [← ht]
      show (((ensureCsv t0).rows ++ st.table).map (fun e => e.data.maps_url)).Nodup
      rw [List.map_append]
      exact hnd.1
    · intro pt0 obs
      refine ⟨rfl, ⟨(Producteurs.runObs obs ∅ []).2, rfl⟩, ?_⟩
      exact (Producteurs.runObs_nodup obs ∅ [] (by simp) (by simp)).1

/-- Witness for table_invariant_preserved on the one-area demo run from an
absent table. -/
theorem table_invariant_preserved_witness :
    demoT1.header_written = (ensureCsv (none : Option (CsvTable RunAll.CityEntry))).header_written
    ∧ (∃ newRows, demoT1.rows =
        (ensureCsv (none : Option (CsvTable RunAll.CityEntry))).rows ++ newRows)
    ∧ (demoT1.rows.map (fun e => e.data.maps_url)).Nodup
    ∧ (∀ (pt0 : Option (CsvTable Producteurs.Row)) (obs : List (String × RawHit)),
        (Producteurs.mainTable pt0 obs).header_written = (ensureCsv pt0).header_written
        ∧ (∃ newRows, (Producteurs.mainTable pt0 obs).rows =
            (ensureCsv pt0).rows ++ newRows)
        ∧ (((Producteurs.runObs obs ∅ []).2).map (fun r => r.maps_url)).Nodup) :=
  table_invariant_preserved (fun _ => none) (fun _ => none) none [demoSearches]
    demoT1 demoE1 (by decide) (by decide)

